import Mathlib

/-!
Verification of the cell-construction core of `phonopy/structure/cells.py`.

The Python code works on numpy arrays of floats.  We embed it with exact
rational arithmetic: 3-vectors and 3x3 matrices over `ℚ` (and over `ℤ` for the
integer supercell matrix).  Comparisons of Euclidean norms against a tolerance
`t` are embedded via the equivalence `sqrt s < t ↔ 0 < t ∧ s < t^2` (valid for
`s ≥ 0`), which keeps every definition computable; places where the comparison
genuinely involves a difference of square roots use an exact decision
procedure together with a bridge lemma to `Real.sqrt`.
-/

/-- A 3-vector, mirroring a numpy array of shape (3,). -/
structure V3 (α : Type) where
  x : α
  y : α
  z : α
deriving DecidableEq

/-- A 3x3 matrix as three row vectors, mirroring a numpy array of shape (3,3);
rows are basis vectors, as everywhere in `cells.py`. -/
structure M3 (α : Type) where
  r0 : V3 α
  r1 : V3 α
  r2 : V3 α
deriving DecidableEq

namespace V3

instance [Add α] : Add (V3 α) := ⟨fun a b => ⟨a.x + b.x, a.y + b.y, a.z + b.z⟩⟩

instance [Sub α] : Sub (V3 α) := ⟨fun a b => ⟨a.x - b.x, a.y - b.y, a.z - b.z⟩⟩

instance [Neg α] : Neg (V3 α) := ⟨fun a => ⟨-a.x, -a.y, -a.z⟩⟩

instance [Zero α] : Zero (V3 α) := ⟨⟨0, 0, 0⟩⟩

/-- Dot product of two 3-vectors (`np.vdot` / row-times-column). -/
def dot [Mul α] [Add α] (a b : V3 α) : α :=
  a.x * b.x + a.y * b.y + a.z * b.z

/-- Sum of squared components of `a`, i.e. `np.sum(a**2)`. -/
def sqNorm [Mul α] [Add α] (a : V3 α) : α := dot a a

/-- Cast an integer vector to a rational vector. -/
def toQ (a : V3 ℤ) : V3 ℚ := ⟨(a.x : ℚ), (a.y : ℚ), (a.z : ℚ)⟩

end V3

namespace M3

/-- Row vector times matrix: `np.dot(v, m)` where `m` is a matrix of rows. -/
def rowMul [Mul α] [Add α] (v : V3 α) (m : M3 α) : V3 α :=
  ⟨v.x * m.r0.x + v.y * m.r1.x + v.z * m.r2.x,
   v.x * m.r0.y + v.y * m.r1.y + v.z * m.r2.y,
   v.x * m.r0.z + v.y * m.r1.z + v.z * m.r2.z⟩

/-- Matrix product `a · b` (both as matrices of rows). -/
def mul [Mul α] [Add α] (a b : M3 α) : M3 α :=
  ⟨rowMul a.r0 b, rowMul a.r1 b, rowMul a.r2 b⟩

/-- Matrix transpose. -/
def transpose (m : M3 α) : M3 α :=
  ⟨⟨m.r0.x, m.r1.x, m.r2.x⟩, ⟨m.r0.y, m.r1.y, m.r2.y⟩, ⟨m.r0.z, m.r1.z, m.r2.z⟩⟩

/-- The explicit 3x3 determinant formula, exactly as the source function
`determinant(m)` expands it. -/
def det [Mul α] [Add α] [Sub α] (m : M3 α) : α :=
  m.r0.x * m.r1.y * m.r2.z - m.r0.x * m.r1.z * m.r2.y +
  m.r0.y * m.r1.z * m.r2.x - m.r0.y * m.r1.x * m.r2.z +
  m.r0.z * m.r1.x * m.r2.y - m.r0.z * m.r1.y * m.r2.x

/-- Matrix inverse over `ℚ` via the adjugate formula; this is the exact-value
counterpart of `np.linalg.inv` (callers guard `det ≠ 0`, matching the
`LinAlgError` raised on a singular input). -/
def inv (m : M3 ℚ) : M3 ℚ :=
  let d := det m
  ⟨⟨(m.r1.y * m.r2.z - m.r1.z * m.r2.y) / d,
    (m.r0.z * m.r2.y - m.r0.y * m.r2.z) / d,
    (m.r0.y * m.r1.z - m.r0.z * m.r1.y) / d⟩,
   ⟨(m.r1.z * m.r2.x - m.r1.x * m.r2.z) / d,
    (m.r0.x * m.r2.z - m.r0.z * m.r2.x) / d,
    (m.r0.z * m.r1.x - m.r0.x * m.r1.z) / d⟩,
   ⟨(m.r1.x * m.r2.y - m.r1.y * m.r2.x) / d,
    (m.r0.y * m.r2.x - m.r0.x * m.r2.y) / d,
    (m.r0.x * m.r1.y - m.r0.y * m.r1.x) / d⟩⟩

/-- The identity matrix. -/
def idM [Zero α] [One α] : M3 α :=
  ⟨⟨1, 0, 0⟩, ⟨0, 1, 0⟩, ⟨0, 0, 1⟩⟩

/-- Diagonal matrix from an integer triple, cast to `ℚ`
(`np.diag(multi)` applied to a lattice). -/
def diagQ (v : V3 ℤ) : M3 ℚ :=
  ⟨⟨(v.x : ℚ), 0, 0⟩, ⟨0, (v.y : ℚ), 0⟩, ⟨0, 0, (v.z : ℚ)⟩⟩

/-- Cast an integer matrix to a rational matrix. -/
def toQ (m : M3 ℤ) : M3 ℚ := ⟨m.r0.toQ, m.r1.toQ, m.r2.toQ⟩

end M3

/-- Fractional part `q - ⌊q⌋`, i.e. the effect of `x -= np.floor(x)`. -/
def fracPart (q : ℚ) : ℚ := q - ⌊q⌋

/-- `np.rint`: round to the nearest integer, rounding exact halves to the
nearest even integer (IEEE round-half-even, which numpy follows). -/
def rint (q : ℚ) : ℤ :=
  let f := ⌊q⌋
  let r := q - f
  if r < 1 / 2 then f
  else if 1 / 2 < r then f + 1
  else if f % 2 = 0 then f else f + 1

/-- Componentwise fractional part of a vector. -/
def fracV (v : V3 ℚ) : V3 ℚ := ⟨fracPart v.x, fracPart v.y, fracPart v.z⟩

/-- Componentwise `np.rint` of a vector, as a rational vector. -/
def rintV (v : V3 ℚ) : V3 ℚ := ⟨(rint v.x : ℚ), (rint v.y : ℚ), (rint v.z : ℚ)⟩

/-- `d - np.rint(d)`: the minimum-image convention applied to a fractional
difference vector. -/
def minImage (d : V3 ℚ) : V3 ℚ := d - rintV d

/-- The structure value object produced and consumed by the core: lattice (rows
are basis vectors), scaled positions, atomic numbers, and optional masses and
magnetic moments, mirroring the fields read off a `PhonopyAtoms` instance. -/
structure Cell where
  lattice : M3 ℚ
  positions : List (V3 ℚ)
  numbers : List ℤ
  masses : Option (List ℚ)
  magmoms : Option (List ℚ)
deriving DecidableEq

/-- The comparison `np.sqrt s < tol` for a sum of squares `s ≥ 0`, expressed
without square roots: `sqrt s < tol ↔ 0 < tol ∧ s < tol^2`. -/
def distLt (s tol : ℚ) : Prop := 0 < tol ∧ s < tol ^ 2

instance (s tol : ℚ) : Decidable (distLt s tol) := by
  unfold distLt; infer_instance

/-- The indices (into the kept-atom list) whose minimum-image distance to
`pos`, measured with lattice `L`, is below `tol`: this is
`np.where(distances < symprec)[0]` inside `trim_cell`. -/
def overlapIndices (L : M3 ℚ) (tol : ℚ) (kept : List (V3 ℚ)) (pos : V3 ℚ) : List ℕ :=
  (kept.enum.filter
    (fun p => decide (distLt (V3.sqNorm (M3.rowMul (minImage (p.2 - pos)) L)) tol))).map Prod.fst

/-- Running state of the `trim_cell` loop: kept (deduplicated) positions, the
source indices of kept atoms (`extracted_atoms`), and the mapping-table entries
fixed so far (entry `i` of `mapping_table` is final once atom `i` is visited). -/
structure TrimState where
  kept : List (V3 ℚ)
  extracted : List ℕ
  mapping : List ℕ
deriving DecidableEq

/-- One pass of the `trim_cell` atom loop over the remaining (index, folded
position) pairs.  Returns `none` when `assert len(overlap_indices) == 1`
fails, i.e. a folded position overlaps more than one previously kept atom. -/
def trimLoop (L : M3 ℚ) (tol : ℚ) : TrimState → List (ℕ × V3 ℚ) → Option TrimState
  | st, [] => some st
  | st, (i, pos) :: rest =>
    let ov := overlapIndices L tol st.kept pos
    if ov.length = 0 then
      trimLoop L tol ⟨st.kept ++ [pos], st.extracted ++ [i], st.mapping ++ [i]⟩ rest
    else if ov.length = 1 then
      trimLoop L tol ⟨st.kept, st.extracted, st.mapping ++ [st.extracted.getD (ov.headD 0) 0]⟩ rest
    else
      none

/-- Whether the `trim_cell` loop hits a position overlapping two or more
previously kept atoms (the condition of the failing assertion). -/
def trimAmbiguous (L : M3 ℚ) (tol : ℚ) : TrimState → List (ℕ × V3 ℚ) → Bool
  | _, [] => false
  | st, (i, pos) :: rest =>
    let ov := overlapIndices L tol st.kept pos
    if ov.length = 0 then
      trimAmbiguous L tol ⟨st.kept ++ [pos], st.extracted ++ [i], st.mapping ++ [i]⟩ rest
    else if ov.length = 1 then
      trimAmbiguous L tol ⟨st.kept, st.extracted, st.mapping ++ [st.extracted.getD (ov.headD 0) 0]⟩ rest
    else
      true

/-- `trim_cell(relative_axes, cell, symprec)`.  Returns `none` when the Python
call raises: on a singular `relative_axes` (`np.linalg.inv`) or on the
overlap-ambiguity assertion.  Otherwise returns the trimmed cell,
`extracted_atoms` and `mapping_table`.  The kept atoms' numbers, masses and
magmoms are read off the input at the kept source indices, which is exactly
what the append-at-keep-time loop of the source produces. -/
def trimCell (relativeAxes : M3 ℚ) (cell : Cell) (tol : ℚ) :
    Option (Cell × List ℕ × List ℕ) :=
  if M3.det relativeAxes = 0 then none
  else
    match trimLoop (M3.mul (M3.transpose relativeAxes) cell.lattice) tol ⟨[], [], []⟩
        ((cell.positions.map
          (fun p => fracV (M3.rowMul p (M3.transpose (M3.inv relativeAxes))))).enum) with
    | none => none
    | some st =>
      some ({ lattice := M3.mul (M3.transpose relativeAxes) cell.lattice
              positions := st.kept
              numbers := st.extracted.map (fun i => cell.numbers.getD i 0)
              masses := cell.masses.map (fun ms => st.extracted.map (fun i => ms.getD i 0))
              magmoms := cell.magmoms.map (fun ms => st.extracted.map (fun i => ms.getD i 0)) },
            st.extracted, st.mapping)


/-- A small concrete two-atom cell used to instantiate theorems with
hypotheses on concrete inputs. -/
def exCellB : Cell :=
  { lattice := M3.idM
    positions := [⟨0, 0, 0⟩, ⟨1/2, 0, 0⟩]
    numbers := [1, 2]
    masses := some [10, 20]
    magmoms := none }

/-- A three-atom cell whose last atom folds onto the first one. -/
def exCellC : Cell :=
  { lattice := M3.idM
    positions := [⟨0, 0, 0⟩, ⟨1/2, 0, 0⟩, ⟨0, 0, 0⟩]
    numbers := [1, 2, 3]
    masses := none
    magmoms := none }

/-- The expected trim of `exCellC` under identity axes. -/
def exCellCTrimmed : Cell :=
  { lattice := M3.idM
    positions := [⟨0, 0, 0⟩, ⟨1/2, 0, 0⟩]
    numbers := [1, 2]
    masses := none
    magmoms := none }


/-- One component of the surrounding frame: the spread
`max(axes[:,i]) - min(axes[:,i])` of the 8 corner combinations
`0, c0, c1, c2, c1+c2, c2+c0, c0+c1, c0+c1+c2` of the supercell matrix
columns.  Coordinate `i` of those corners involves exactly the entries
`a, b, c` of row `i` of the matrix. -/
def frameComp (a b c : ℤ) : ℤ :=
  max (max (max (max (max (max (max 0 a) b) c) (b + c)) (c + a)) (a + b)) (a + b + c) -
  min (min (min (min (min (min (min 0 a) b) c) (b + c)) (c + a)) (a + b)) (a + b + c)

/-- `Supercell._get_surrounding_frame`. -/
def surFrame (m : M3 ℤ) : V3 ℤ :=
  ⟨frameComp m.r0.x m.r0.y m.r0.z,
   frameComp m.r1.x m.r1.y m.r1.z,
   frameComp m.r2.x m.r2.y m.r2.z⟩

/-- Number of replicas of each unit-cell atom in the simple supercell. -/
def frameCount (m : M3 ℤ) : ℕ :=
  (surFrame m).z.toNat * ((surFrame m).y.toNat * (surFrame m).x.toNat)

/-- The replicas of one atom in the simple supercell, in the loop order of
`_get_simple_supercell` (`i` over `multi[2]` outermost, then `j`, then `k`). -/
def replicasOf (f : V3 ℤ) (pos : V3 ℚ) : List (V3 ℚ) :=
  (List.range f.z.toNat).flatMap (fun (i : ℕ) =>
    (List.range f.y.toNat).flatMap (fun (j : ℕ) =>
      (List.range f.x.toNat).map (fun (k : ℕ) =>
        ⟨(pos.x + (k : ℚ)) / (f.x : ℚ), (pos.y + (j : ℚ)) / (f.y : ℚ),
         (pos.z + (i : ℚ)) / (f.z : ℚ)⟩)))

/-- The simple (surrounding) supercell built by `_get_simple_supercell`:
every atom replicated `frameCount` times, lattice scaled by `diag(frame)`. -/
def surCellOf (m : M3 ℤ) (uc : Cell) : Cell :=
  { lattice := M3.mul (M3.diagQ (surFrame m)) uc.lattice
    positions := uc.positions.flatMap (replicasOf (surFrame m))
    numbers := uc.numbers.flatMap (fun q => List.replicate (frameCount m) q)
    masses := uc.masses.map (fun ms => ms.flatMap (fun q => List.replicate (frameCount m) q))
    magmoms := uc.magmoms.map (fun ms => ms.flatMap (fun q => List.replicate (frameCount m) q)) }

/-- The pre-trim atom map of `_get_simple_supercell`: emitted atom index to
unit-cell atom index (`atom_map`). -/
def surMapOf (m : M3 ℤ) (uc : Cell) : List ℕ :=
  (List.range uc.positions.length).flatMap (fun l => List.replicate (frameCount m) l)

/-- The trimming relative axes `[mat[i] / float(frame[i])]`. -/
def trimFrameOf (m : M3 ℤ) : M3 ℚ :=
  ⟨⟨(m.r0.x : ℚ) / ((surFrame m).x : ℚ), (m.r0.y : ℚ) / ((surFrame m).x : ℚ),
    (m.r0.z : ℚ) / ((surFrame m).x : ℚ)⟩,
   ⟨(m.r1.x : ℚ) / ((surFrame m).y : ℚ), (m.r1.y : ℚ) / ((surFrame m).y : ℚ),
    (m.r1.z : ℚ) / ((surFrame m).y : ℚ)⟩,
   ⟨(m.r2.x : ℚ) / ((surFrame m).z : ℚ), (m.r2.y : ℚ) / ((surFrame m).z : ℚ),
    (m.r2.z : ℚ) / ((surFrame m).z : ℚ)⟩⟩

/-- The `dict([(j, i) for i, j in enumerate(u2s)])` of `_create_supercell`,
as an association list (the keys `i * multi` are pairwise distinct, so
association-list lookup agrees with the Python dict). -/
def u2uOf (u2s : List ℕ) : List (ℕ × ℕ) :=
  u2s.enum.map (fun p => (p.2, p.1))

/-- The result of `Supercell.__init__`: the built structure, whether the
multiplicity validation succeeded, and the three index maps (in Python the
maps stay `None` and the structure stays empty when validation fails). -/
structure SupercellResult where
  cell : Cell
  success : Bool
  s2u : Option (List ℕ)
  u2s : Option (List ℕ)
  u2u : Option (List (ℕ × ℕ))
deriving DecidableEq

/-- The empty structure produced by the bare `Atoms.__init__(self)` call on
validation failure. -/
def emptyCell : Cell :=
  { lattice := ⟨⟨0, 0, 0⟩, ⟨0, 0, 0⟩, ⟨0, 0, 0⟩⟩
    positions := []
    numbers := []
    masses := none
    magmoms := none }

/-- `Supercell._create_supercell` (hence `get_supercell`): build the simple
supercell, trim it with the relative axes `mat[i]/frame[i]`, then validate
`num_satom // num_uatom == determinant(supercell_matrix)`.  `none` models a
raised exception: a zero frame component (degenerate matrix row), a failure
inside `trim_cell`, or `num_uatom == 0` (division by zero). -/
def createSupercell (uc : Cell) (m : M3 ℤ) (tol : ℚ) : Option SupercellResult :=
  if (surFrame m).x = 0 ∨ (surFrame m).y = 0 ∨ (surFrame m).z = 0 then none
  else
    match trimCell (trimFrameOf m) (surCellOf m uc) tol with
    | none => none
    | some (supercell, sur2s, _mappingTable) =>
      if uc.positions.length = 0 then none
      else
        if ((supercell.positions.length / uc.positions.length : ℕ) : ℤ) ≠ M3.det m then
          some { cell := emptyCell, success := false, s2u := none, u2s := none, u2u := none }
        else
          some { cell := supercell
                 success := true
                 s2u := some (sur2s.map (fun s =>
                   (surMapOf m uc).getD s 0 *
                     (supercell.positions.length / uc.positions.length)))
                 u2s := some ((List.range uc.positions.length).map
                   (fun i => i * (supercell.positions.length / uc.positions.length)))
                 u2u := some (u2uOf ((List.range uc.positions.length).map
                   (fun i => i * (supercell.positions.length / uc.positions.length)))) }


/-- A one-atom unit cell used to instantiate the supercell theorems. -/
def ucA : Cell :=
  { lattice := M3.idM
    positions := [⟨0, 0, 0⟩]
    numbers := [1]
    masses := none
    magmoms := none }

/-- The diagonal supercell matrix `diag(1,1,2)` (determinant 2). -/
def mA : M3 ℤ := ⟨⟨1, 0, 0⟩, ⟨0, 1, 0⟩, ⟨0, 0, 2⟩⟩

/-- The expected trimmed supercell for `ucA` under `mA`. -/
def exSuperTrimmed : Cell :=
  { lattice := ⟨⟨1, 0, 0⟩, ⟨0, 1, 0⟩, ⟨0, 0, 2⟩⟩
    positions := [⟨0, 0, 0⟩, ⟨0, 0, 1/2⟩]
    numbers := [1, 1]
    masses := none
    magmoms := none }


/-- The four extended Selling vectors `b0,b1,b2,b3` manipulated by
`get_Delaunay_reduction` (`extended_bases`). -/
structure E4 where
  b0 : V3 ℚ
  b1 : V3 ℚ
  b2 : V3 ℚ
  b3 : V3 ℚ
deriving DecidableEq

/-- One call of `_reduce_bases`: scan the Gram matrix off-diagonal entries in
row-major order `(0,1),(0,2),(0,3),(1,2),(1,3),(2,3)`; on the first entry
exceeding `tolerance`, add `b_i` to the two vectors other than `b_i, b_j` and
negate `b_i`, returning the mutated bases (`False` in Python); if no entry
exceeds the tolerance, return `none` (`True` in Python: reduction finished). -/
def reduceBases (e : E4) (tol : ℚ) : Option E4 :=
  if V3.dot e.b0 e.b1 > tol then some ⟨-e.b0, e.b1, e.b2 + e.b0, e.b3 + e.b0⟩
  else if V3.dot e.b0 e.b2 > tol then some ⟨-e.b0, e.b1 + e.b0, e.b2, e.b3 + e.b0⟩
  else if V3.dot e.b0 e.b3 > tol then some ⟨-e.b0, e.b1 + e.b0, e.b2 + e.b0, e.b3⟩
  else if V3.dot e.b1 e.b2 > tol then some ⟨e.b0 + e.b1, -e.b1, e.b2, e.b3 + e.b1⟩
  else if V3.dot e.b1 e.b3 > tol then some ⟨e.b0 + e.b1, -e.b1, e.b2 + e.b1, e.b3⟩
  else if V3.dot e.b2 e.b3 > tol then some ⟨e.b0 + e.b2, e.b1 + e.b2, -e.b2, e.b3⟩
  else none

/-- The `for i in range(100): if _reduce_bases(...): break` loop, with the
remaining iteration count as fuel.  Returns the final bases and whether the
loop converged (broke) before the fuel ran out. -/
def sellingLoop (tol : ℚ) : ℕ → E4 → E4 × Bool
  | 0, e => (e, false)
  | n + 1, e =>
    match reduceBases e tol with
    | none => (e, true)
    | some e2 => sellingLoop tol n e2

/-- The 7 candidate vectors of `_get_shortest_bases_from_extented_bases`, in
source order: the 4 extended bases and the sums `b0+b1, b1+b2, b2+b0`. -/
def candidates7 (e : E4) : List (V3 ℚ) :=
  [e.b0, e.b1, e.b2, e.b3, e.b0 + e.b1, e.b1 + e.b2, e.b2 + e.b0]

/-- Comparison by squared length, the sort key
`lambda vec: (vec ** 2).sum()`. -/
def sqLeV (a b : V3 ℚ) : Prop := V3.sqNorm a ≤ V3.sqNorm b

instance : DecidableRel sqLeV := fun a b => by unfold sqLeV; infer_instance

instance : IsTotal (V3 ℚ) sqLeV := ⟨fun x1 x2 => le_total (V3.sqNorm x1) (V3.sqNorm x2)⟩

instance : IsTrans (V3 ℚ) sqLeV := ⟨fun _ _ _ => le_trans⟩

/-- The predicate of the triple scan:
`abs(np.linalg.det([b_i, b_j, b_k])) > tolerance`. -/
def detPred (tol : ℚ) : M3 ℚ → Bool := fun t => decide (|M3.det t| > tol)

/-- Innermost loop of the triple scan: try every third vector in order. -/
def scan1 (pred : M3 ℚ → Bool) (x y : V3 ℚ) : List (V3 ℚ) → Option (M3 ℚ)
  | [] => none
  | z :: rest => if pred ⟨x, y, z⟩ then some ⟨x, y, z⟩ else scan1 pred x y rest

/-- Middle loop of the triple scan: try every second vector in order. -/
def scan2 (pred : M3 ℚ → Bool) (x : V3 ℚ) : List (V3 ℚ) → Option (M3 ℚ)
  | [] => none
  | y :: rest =>
    match scan1 pred x y rest with
    | some r => some r
    | none => scan2 pred x rest

/-- The triple scan `for i ... for j in range(i+1,7) ... for k in range(j+1,7)`
over a list, in lexicographic order of positions. -/
def scan3 (pred : M3 ℚ → Bool) : List (V3 ℚ) → Option (M3 ℚ)
  | [] => none
  | x :: rest =>
    match scan2 pred x rest with
    | some r => some r
    | none => scan3 pred rest

/-- `_get_shortest_bases_from_extented_bases`: sort the 7 candidates by
squared length (Python `sorted` is stable; insertion sort by a total `≤` is
the same stable sort), then return the lexicographically first triple whose
determinant magnitude exceeds the tolerance; if none exists, print a failure
message and fall back to the first three sorted candidates (flag `true`). -/
def getShortestBases (e : E4) (tol : ℚ) : M3 ℚ × Bool :=
  match scan3 (detPred tol) (List.insertionSort sqLeV (candidates7 e)) with
  | some t => (t, false)
  | none =>
    (⟨(List.insertionSort sqLeV (candidates7 e)).getD 0 0,
      (List.insertionSort sqLeV (candidates7 e)).getD 1 0,
      (List.insertionSort sqLeV (candidates7 e)).getD 2 0⟩, true)

/-- Result of `get_Delaunay_reduction`: the returned basis plus the two
conditions the source only prints about (loop not converged within 100
iterations; no independent triple found).  In Python both paths merely print
and the basis is returned anyway. -/
structure DelaunayResult where
  basis : M3 ℚ
  converged : Bool
  degenerate : Bool
deriving DecidableEq

/-- `get_Delaunay_reduction(lattice, tolerance)`. -/
def getDelaunayReduction (lattice : M3 ℚ) (tol : ℚ) : DelaunayResult :=
  match sellingLoop tol 100
      ⟨lattice.r0, lattice.r1, lattice.r2, -(lattice.r0 + lattice.r1 + lattice.r2)⟩ with
  | (e, conv) =>
    match getShortestBases e tol with
    | (b, degen) => { basis := b, converged := conv, degenerate := degen }

/-- The 27 offsets `[i,j,k] for i in (-1,0,1) for j in (-1,0,1) for k in
(-1,0,1)` (`lattice_points`). -/
def latticePoints : List (V3 ℚ) :=
  ([-1, 0, 1] : List ℚ).flatMap (fun i =>
    ([-1, 0, 1] : List ℚ).flatMap (fun j =>
      ([-1, 0, 1] : List ℚ).map (fun k => ⟨i, j, k⟩)))

/-- `frac_vector + lattice_points`: the 27 candidate images. -/
def candidateList (fracVector : V3 ℚ) : List (V3 ℚ) :=
  latticePoints.map (fun z => fracVector + z)

/-- The squared Cartesian lengths of the 27 candidates (the code takes
`sqrt`; we keep squares and compare exactly). -/
def candidateSqs (v : V3 ℚ) (B : M3 ℚ) : List ℚ :=
  (candidateList v).map (fun c => V3.sqNorm (M3.rowMul c B))

/-- Minimum of a list of rationals (`np.min`); 0 for the empty list, which
never occurs at call sites. -/
def qmin : List ℚ → ℚ
  | [] => 0
  | [a] => a
  | a :: rest => min a (qmin rest)

/-- Exact decision of `sqrt a - sqrt m < t` for rationals `0 ≤ m ≤ a` (the
comparison `lengths - lengths.min() < symprec` of the source, which genuinely
involves square roots); see the bridge lemma `sqrtDiffLt_iff`. -/
def sqrtDiffLt (a m t : ℚ) : Bool :=
  if t ≤ 0 then false
  else if a - m - t ^ 2 < 0 then true
  else decide ((a - m - t ^ 2) ^ 2 < 4 * t ^ 2 * m)

/-- `_get_equivalent_smallest_vectors_simple(frac_vector, reduced_bases,
symprec)`: keep the candidates whose Cartesian length is within `symprec` of
the minimum candidate length. -/
def getEquivalentSmallestVectorsSimple (fracVector : V3 ℚ) (reducedBases : M3 ℚ)
    (symprec : ℚ) : List (V3 ℚ) :=
  (candidateList fracVector).filter (fun c =>
    sqrtDiffLt (V3.sqNorm (M3.rowMul c reducedBases))
      (qmin (candidateSqs fracVector reducedBases)) symprec)


/-- The zero lattice: a degenerate input for the reduction. -/
def zeroLat : M3 ℚ := ⟨⟨0, 0, 0⟩, ⟨0, 0, 0⟩, ⟨0, 0, 0⟩⟩

/-- A skewed lattice whose Selling reduction needs 120 iterations, past the
100-iteration bound of `get_Delaunay_reduction`. -/
def skewLat : M3 ℚ := ⟨⟨1, 0, 0⟩, ⟨60, 1, 0⟩, ⟨0, 0, 1⟩⟩

/-- A lattice whose Delaunay-reduced output contains an acute basis pair. -/
def acuteLat : M3 ℚ := ⟨⟨1, 0, 0⟩, ⟨-9/10, 7/10, 0⟩, ⟨0, 0, 1⟩⟩


/-- Determinant of the first three extended bases. -/
def det3 (e : E4) : ℚ := M3.det ⟨e.b0, e.b1, e.b2⟩

/-- Coefficient vectors of the 7 candidates of
`_get_shortest_bases_from_extented_bases` with respect to the first three
extended bases (using `b3 = -(b0+b1+b2)`), in source order:
`b0, b1, b2, b3, b0+b1, b1+b2, b2+b0`. -/
def coeffs7 : List (V3 ℚ) :=
  [⟨1, 0, 0⟩, ⟨0, 1, 0⟩, ⟨0, 0, 1⟩, ⟨-1, -1, -1⟩, ⟨1, 1, 0⟩, ⟨0, 1, 1⟩, ⟨1, 0, 1⟩]

/-- Coefficient vectors of the three pairwise sums among the 7 candidates. -/
def sumCoeffs : List (V3 ℚ) := [⟨1, 1, 0⟩, ⟨0, 1, 1⟩, ⟨1, 0, 1⟩]

/-- The six orderings of the three pairwise-sum coefficient vectors: exactly
the coefficient triples whose determinant has magnitude 2. -/
def sumPermList : List (V3 ℚ × V3 ℚ × V3 ℚ) :=
  [(⟨1, 1, 0⟩, ⟨0, 1, 1⟩, ⟨1, 0, 1⟩), (⟨1, 1, 0⟩, ⟨1, 0, 1⟩, ⟨0, 1, 1⟩),
   (⟨0, 1, 1⟩, ⟨1, 1, 0⟩, ⟨1, 0, 1⟩), (⟨0, 1, 1⟩, ⟨1, 0, 1⟩, ⟨1, 1, 0⟩),
   (⟨1, 0, 1⟩, ⟨1, 1, 0⟩, ⟨0, 1, 1⟩), (⟨1, 0, 1⟩, ⟨0, 1, 1⟩, ⟨1, 1, 0⟩)]

/-- The componentwise test `(abs(diff) < self._symprec).all()` of
`_supercell_to_primitive_map`. -/
def allCloseB (tol : ℚ) (d : V3 ℚ) : Bool :=
  decide (|d.x| < tol) && decide (|d.y| < tol) && decide (|d.z| < tol)

/-- `Primitive._supercell_to_primitive_map(pos)`: for each supercell atom
`i`, scan the primitive-cell representatives `j` in `p2s_map` order and
append the first `j` whose fractional position (in the primitive basis,
`np.dot(pos, inv(primitive_matrix).T)`) matches atom `i` up to a lattice
translation (`diff -= np.rint(diff)`) within the tolerance; an atom with no
match is skipped silently (the `for` loop has no `else`).  The inverse of a
singular primitive matrix raises in numpy, modelled by `none`. -/
def supercellToPrimitiveMap (pos : List (V3 ℚ)) (p2s : List ℕ) (pm : M3 ℚ)
    (tol : ℚ) : Option (List ℕ) :=
  if M3.det pm = 0 then none
  else
    some (pos.filterMap (fun sp =>
      p2s.find? (fun j =>
        allCloseB tol (minImage (M3.rowMul (pos.getD j 0) (M3.inv pm).transpose -
          M3.rowMul sp (M3.inv pm).transpose)))))

/-- Two supercell atoms of which only the first has a primitive image under
the identity primitive matrix. -/
def exPosC8 : List (V3 ℚ) := [⟨0, 0, 0⟩, ⟨1/2, 1/2, 1/2⟩]

/-- The supercell matrix as a Mathlib `Matrix` over `Fin 3` (rows indexed
first), for the lattice-index argument. -/
def matFin (m : M3 ℤ) : Matrix (Fin 3) (Fin 3) ℤ :=
  Matrix.of ![![m.r0.x, m.r0.y, m.r0.z], ![m.r1.x, m.r1.y, m.r1.z], ![m.r2.x, m.r2.y, m.r2.z]]

/-- A `V3 ℤ` as a `Fin 3`-indexed vector. -/
def funOfV3 (v : V3 ℤ) : Fin 3 → ℤ := ![v.x, v.y, v.z]

/-- A `Fin 3`-indexed vector as a `V3 ℤ`. -/
def v3OfFun (κ : Fin 3 → ℤ) : V3 ℤ := ⟨κ 0, κ 1, κ 2⟩

/-- The row lattice `ℤ³·Mᵀ` of the supercell matrix: integer vectors whose
image under `·(M⁻¹)ᵀ` is integral. -/
def latticeOf (m : M3 ℤ) : AddSubgroup (Fin 3 → ℤ) :=
  (LinearMap.range (Matrix.vecMulLinear (matFin m).transpose)).toAddSubgroup

/-- The folded new-lattice coordinate of the image of unit-cell position `u`
offset by the integer vector `κ`: `frac((u + κ)·(M⁻¹)ᵀ)`. -/
def newCoordOf (m : M3 ℤ) (u : V3 ℚ) (κ : V3 ℤ) : V3 ℚ :=
  fracV (M3.rowMul (u + V3.toQ κ) (M3.transpose (M3.inv (M3.toQ m))))

/-! ### Theorems.  Everything from here on is proof; all embedded definitions
are above. -/

namespace V3

theorem add_x [Add α] (a b : V3 α) : (a + b).x = a.x + b.x := rfl

theorem add_y [Add α] (a b : V3 α) : (a + b).y = a.y + b.y := rfl

theorem add_z [Add α] (a b : V3 α) : (a + b).z = a.z + b.z := rfl

theorem sub_x [Sub α] (a b : V3 α) : (a - b).x = a.x - b.x := rfl

theorem sub_y [Sub α] (a b : V3 α) : (a - b).y = a.y - b.y := rfl

theorem sub_z [Sub α] (a b : V3 α) : (a - b).z = a.z - b.z := rfl

theorem ext_iff' (a b : V3 α) : a = b ↔ a.x = b.x ∧ a.y = b.y ∧ a.z = b.z := by
  constructor
  · rintro rfl; exact ⟨rfl, rfl, rfl⟩
  · rcases a with ⟨ax, ay, az⟩
    rcases b with ⟨bx, by_, bz⟩
    rintro ⟨h1, h2, h3⟩
    simp_all

end V3

namespace M3

theorem ext_iff (a b : M3 α) : a = b ↔ a.r0 = b.r0 ∧ a.r1 = b.r1 ∧ a.r2 = b.r2 := by
  constructor
  · rintro rfl; exact ⟨rfl, rfl, rfl⟩
  · rcases a with ⟨a0, a1, a2⟩
    rcases b with ⟨b0, b1, b2⟩
    rintro ⟨h1, h2, h3⟩
    simp_all

theorem rowMul_idM (v : V3 ℚ) : rowMul v idM = v := by
  rcases v with ⟨a, b, c⟩
  simp [rowMul, idM, V3.ext_iff']

theorem mul_idM_left (m : M3 ℚ) : mul idM m = m := by
  rcases m with ⟨⟨a, b, c⟩, ⟨d, e, f⟩, ⟨g, h, i⟩⟩
  simp [mul, rowMul, idM, M3.ext_iff, V3.ext_iff']

theorem rowMul_rowMul (v : V3 ℚ) (a b : M3 ℚ) :
    rowMul (rowMul v a) b = rowMul v (mul a b) := by
  rcases v with ⟨vx, vy, vz⟩
  rcases a with ⟨⟨a0, a1, a2⟩, ⟨a3, a4, a5⟩, ⟨a6, a7, a8⟩⟩
  rcases b with ⟨⟨b0, b1, b2⟩, ⟨b3, b4, b5⟩, ⟨b6, b7, b8⟩⟩
  simp only [rowMul, mul, V3.ext_iff']
  refine ⟨by ring, by ring, by ring⟩

theorem inv_mul (m : M3 ℚ) (h : det m ≠ 0) : mul (inv m) m = idM := by
  rcases m with ⟨⟨a, b, c⟩, ⟨d, e, f⟩, ⟨g, h2, i⟩⟩
  simp only [det] at h
  simp only [mul, inv, det, rowMul, idM, M3.ext_iff, V3.ext_iff']
  refine ⟨⟨?_, ?_, ?_⟩, ⟨?_, ?_, ?_⟩, ?_, ?_, ?_⟩ <;> field_simp <;> ring

theorem mul_inv (m : M3 ℚ) (h : det m ≠ 0) : mul m (inv m) = idM := by
  rcases m with ⟨⟨a, b, c⟩, ⟨d, e, f⟩, ⟨g, h2, i⟩⟩
  simp only [det] at h
  simp only [mul, inv, det, rowMul, idM, M3.ext_iff, V3.ext_iff']
  refine ⟨⟨?_, ?_, ?_⟩, ⟨?_, ?_, ?_⟩, ?_, ?_, ?_⟩ <;> field_simp <;> ring

end M3

theorem rint_intCast (n : ℤ) : rint (n : ℚ) = n := by
  simp [rint]

theorem rint_zero : rint 0 = 0 := by
  have h := rint_intCast 0
  simpa using h

theorem minImage_zero : minImage 0 = 0 := by
  show minImage ⟨0, 0, 0⟩ = ⟨0, 0, 0⟩
  simp [minImage, rintV, rint_zero, V3.ext_iff', V3.sub_x, V3.sub_y, V3.sub_z]

theorem fracPart_add_int (q : ℚ) (n : ℤ) : fracPart (q + n) = fracPart q := by
  simp only [fracPart, Int.floor_add_int, Int.cast_add]
  ring

theorem fracPart_nonneg (q : ℚ) : 0 ≤ fracPart q :=
  sub_nonneg.mpr (Int.floor_le q)

theorem fracPart_lt_one (q : ℚ) : fracPart q < 1 :=
  sub_lt_iff_lt_add.mpr (by simp [add_comm])

theorem fracPart_eq_self {q : ℚ} (h0 : 0 ≤ q) (h1 : q < 1) : fracPart q = q := by
  have : ⌊q⌋ = 0 := Int.floor_eq_zero_iff.mpr ⟨h0, h1⟩
  simp [fracPart, this]


theorem enumFrom_cons {α : Type} (n : ℕ) (p : α) (l : List α) :
    List.enumFrom n (p :: l) = (n, p) :: List.enumFrom (n + 1) l := rfl

theorem mem_enumFrom_bounds {α : Type} (l : List α) (n : ℕ) :
    ∀ x ∈ List.enumFrom n l, n ≤ x.1 ∧ x.1 < n + l.length ∧ x.2 ∈ l := by
  induction l generalizing n with
  | nil => intro x hx; simp [List.enumFrom] at hx
  | cons p rest ih =>
    intro x hx
    rw [enumFrom_cons, List.mem_cons] at hx
    rcases hx with hx | hx
    · subst hx
      exact ⟨le_refl n, by simp, by simp⟩
    · obtain ⟨h1, h2, h3⟩ := ih (n + 1) x hx
      exact ⟨by omega, by simp only [List.length_cons]; omega, List.mem_cons_of_mem _ h3⟩

theorem mem_enumFrom_of_mem {α : Type} (l : List α) (n : ℕ) (a : α) (h : a ∈ l) :
    ∃ i, (i, a) ∈ List.enumFrom n l := by
  induction l generalizing n with
  | nil => simp at h
  | cons p rest ih =>
    rw [List.mem_cons] at h
    rcases h with h | h
    · subst h
      exact ⟨n, by rw [enumFrom_cons]; exact List.mem_cons_self _ _⟩
    · obtain ⟨i, hi⟩ := ih (n + 1) h
      exact ⟨i, by rw [enumFrom_cons]; exact List.mem_cons_of_mem _ hi⟩

theorem overlapIndices_mem_lt (L : M3 ℚ) (tol : ℚ) (kept : List (V3 ℚ)) (pos : V3 ℚ) :
    ∀ j ∈ overlapIndices L tol kept pos, j < kept.length := by
  intro j hj
  unfold overlapIndices at hj
  obtain ⟨⟨i, q⟩, hmem, rfl⟩ := List.mem_map.mp hj
  have := List.mem_filter.mp hmem
  have hb := mem_enumFrom_bounds kept 0 _ this.1
  simpa using hb.2.1

theorem overlapIndices_eq_nil (L : M3 ℚ) (tol : ℚ) (kept : List (V3 ℚ)) (pos : V3 ℚ)
    (h : ∀ q ∈ kept, ¬ distLt (V3.sqNorm (M3.rowMul (minImage (q - pos)) L)) tol) :
    overlapIndices L tol kept pos = [] := by
  unfold overlapIndices
  rw [List.map_eq_nil_iff]
  rw [List.filter_eq_nil_iff]
  intro a ha
  have hb := mem_enumFrom_bounds kept 0 a ha
  simpa using h a.2 hb.2.2

theorem overlapIndices_ne_nil (L : M3 ℚ) (tol : ℚ) (kept : List (V3 ℚ)) (pos q : V3 ℚ)
    (hq : q ∈ kept) (h : distLt (V3.sqNorm (M3.rowMul (minImage (q - pos)) L)) tol) :
    overlapIndices L tol kept pos ≠ [] := by
  obtain ⟨i, hi⟩ := mem_enumFrom_of_mem kept 0 q hq
  unfold overlapIndices
  intro hcon
  rw [List.map_eq_nil_iff, List.filter_eq_nil_iff] at hcon
  exact hcon (i, q) hi (by simpa using h)

theorem trimLoop_eq_none_iff (L : M3 ℚ) (tol : ℚ) (st : TrimState) (atoms : List (ℕ × V3 ℚ)) :
    trimLoop L tol st atoms = none ↔ trimAmbiguous L tol st atoms = true := by
  induction atoms generalizing st with
  | nil => simp [trimLoop, trimAmbiguous]
  | cons a rest ih =>
    rcases a with ⟨i, pos⟩
    rw [trimLoop, trimAmbiguous]
    split
    · exact ih _
    · split
      · exact ih _
      · simp

/-- C7: `trim_cell` raises (the `assert len(overlap_indices) == 1`) exactly
when some folded position overlaps two or more previously kept atoms within
tolerance (or the relative axes are singular, in which case `np.linalg.inv`
raises first); if every position overlaps at most one kept atom and the axes
are regular, no error is signalled. -/
theorem trim_ambiguity_iff_error (axes : M3 ℚ) (cell : Cell) (tol : ℚ) :
    trimCell axes cell tol = none ↔
      (M3.det axes = 0 ∨
        trimAmbiguous (M3.mul (M3.transpose axes) cell.lattice) tol ⟨[], [], []⟩
          ((cell.positions.map
            (fun p => fracV (M3.rowMul p (M3.transpose (M3.inv axes))))).enum) = true) := by
  unfold trimCell
  split
  · simp_all
  · rename_i hdet
    have hiff := trimLoop_eq_none_iff (M3.mul (M3.transpose axes) cell.lattice) tol ⟨[], [], []⟩
      ((cell.positions.map
        (fun p => fracV (M3.rowMul p (M3.transpose (M3.inv axes))))).enum)
    rcases hloop : trimLoop (M3.mul (M3.transpose axes) cell.lattice) tol ⟨[], [], []⟩
      ((cell.positions.map
        (fun p => fracV (M3.rowMul p (M3.transpose (M3.inv axes))))).enum) with _ | st
    · simp only [hloop] at hiff ⊢
      simp only [true_iff] at hiff
      simp [hdet, hiff]
    · simp only [hloop] at hiff ⊢
      constructor
      · intro hc; simp at hc
      · intro hc
        rcases hc with hc | hc
        · exact absurd hc hdet
        · rw [← hiff] at hc; simp at hc

theorem list_map_id_of {α : Type} (l : List α) (f : α → α) (h : ∀ a ∈ l, f a = a) :
    l.map f = l := by
  induction l with
  | nil => rfl
  | cons a rest ih =>
    simp only [List.map_cons, h a (List.mem_cons_self a rest)]
    rw [ih (fun b hb => h b (List.mem_cons_of_mem a hb))]

theorem list_map_getD_range {α : Type} (l : List α) (d : α) :
    (List.range l.length).map (fun i => l.getD i d) = l := by
  apply List.ext_getElem
  · simp
  · intro i h1 h2
    simp [List.getD_eq_getElem?_getD, List.getElem?_eq_getElem h2]

theorem trimLoop_keepAll (L : M3 ℚ) (tol : ℚ) (ps : List (V3 ℚ)) (n : ℕ) (st : TrimState)
    (hfar : ∀ p ∈ ps, ∀ q ∈ st.kept,
      ¬ distLt (V3.sqNorm (M3.rowMul (minImage (q - p)) L)) tol)
    (hpair : ps.Pairwise
      (fun p p2 => ¬ distLt (V3.sqNorm (M3.rowMul (minImage (p - p2)) L)) tol)) :
    trimLoop L tol st (List.enumFrom n ps) =
      some ⟨st.kept ++ ps, st.extracted ++ List.range' n ps.length,
        st.mapping ++ List.range' n ps.length⟩ := by
  induction ps generalizing st n with
  | nil => simp [trimLoop, List.enumFrom]
  | cons p rest ih =>
    rw [enumFrom_cons, trimLoop]
    have hov : overlapIndices L tol st.kept p = [] :=
      overlapIndices_eq_nil L tol st.kept p
        (fun q hq => hfar p (List.mem_cons_self p rest) q hq)
    rw [List.pairwise_cons] at hpair
    rw [hov]
    have hrec := ih (n + 1) ⟨st.kept ++ [p], st.extracted ++ [n], st.mapping ++ [n]⟩
      (by
        intro p2 hp2 q hq
        simp only [List.mem_append, List.mem_singleton] at hq
        rcases hq with hq | hq
        · exact hfar p2 (List.mem_cons_of_mem p hp2) q hq
        · subst hq; exact hpair.1 p2 hp2)
      hpair.2
    rw [if_pos (show ([] : List ℕ).length = 0 from rfl), hrec]
    simp only [Option.some.injEq, TrimState.mk.injEq, List.length_cons, List.range',
      List.append_assoc, List.singleton_append]

/-- C9: trimming with identity relative axes returns the input unchanged when
positions already lie in `[0,1)` and no two atoms overlap within tolerance:
same lattice, positions, numbers, masses and magmoms, with
`extracted_atoms = [0..N-1]` and the identity `mapping_table`. -/
theorem trim_identity_axes (cell : Cell) (tol : ℚ)
    (hnum : cell.numbers.length = cell.positions.length)
    (hmass : ∀ ms ∈ cell.masses, List.length ms = cell.positions.length)
    (hmag : ∀ ms ∈ cell.magmoms, List.length ms = cell.positions.length)
    (hpos : ∀ p ∈ cell.positions,
      (0 ≤ p.x ∧ p.x < 1) ∧ (0 ≤ p.y ∧ p.y < 1) ∧ (0 ≤ p.z ∧ p.z < 1))
    (hsep : cell.positions.Pairwise
      (fun p q => ¬ distLt (V3.sqNorm (M3.rowMul (minImage (p - q)) cell.lattice)) tol)) :
    trimCell M3.idM cell tol =
      some (cell, List.range cell.positions.length, List.range cell.positions.length) := by
  have hdet : M3.det (M3.idM : M3 ℚ) = 1 := of_decide_eq_true (by with_unfolding_all rfl)
  have hinv : M3.inv (M3.idM : M3 ℚ) = M3.idM := of_decide_eq_true (by with_unfolding_all rfl)
  have htr : M3.transpose (M3.idM : M3 ℚ) = M3.idM := rfl
  unfold trimCell
  rw [if_neg (by rw [hdet]; exact one_ne_zero)]
  have hfold : cell.positions.map
      (fun p => fracV (M3.rowMul p (M3.transpose (M3.inv M3.idM)))) = cell.positions := by
    apply list_map_id_of
    intro p hp
    rw [hinv, htr, M3.rowMul_idM]
    obtain ⟨⟨h1, h2⟩, ⟨h3, h4⟩, h5, h6⟩ := hpos p hp
    simp [fracV, fracPart_eq_self h1 h2, fracPart_eq_self h3 h4, fracPart_eq_self h5 h6]
  rw [hfold]
  have hlat : M3.mul (M3.transpose (M3.idM : M3 ℚ)) cell.lattice = cell.lattice := by
    rw [htr, M3.mul_idM_left]
  rw [hlat]
  have hloop := trimLoop_keepAll cell.lattice tol cell.positions 0 ⟨[], [], []⟩
    (by intro p hp q hq; simp at hq) hsep
  rw [show (cell.positions.enum = List.enumFrom 0 cell.positions) from rfl, hloop]
  simp only [List.nil_append, Option.some.injEq]
  rw [← List.range_eq_range']
  refine Prod.ext ?_ rfl
  show _ = cell
  rcases cell with ⟨lat, ps, nums, mss, mgs⟩
  simp only at hnum hmass hmag
  simp only [Cell.mk.injEq, true_and, and_true, eq_self_iff_true]
  refine ⟨?_, ?_, ?_⟩
  · rw [← hnum]
    exact list_map_getD_range nums 0
  · rcases mss with _ | ms
    · rfl
    · rw [Option.map_some']
      have h := hmass ms rfl
      rw [← h, list_map_getD_range ms 0]
  · rcases mgs with _ | ms
    · rfl
    · rw [Option.map_some']
      have h := hmag ms rfl
      rw [← h, list_map_getD_range ms 0]

/-- Witness instantiating `trim_identity_axes` on a concrete two-atom cell. -/
theorem trim_identity_axes_witness :
    trimCell M3.idM exCellB (1/10) =
      some (exCellB, List.range exCellB.positions.length,
        List.range exCellB.positions.length) :=
  trim_identity_axes exCellB (1/10) (of_decide_eq_true (by with_unfolding_all rfl))
    (of_decide_eq_true (by with_unfolding_all rfl)) (of_decide_eq_true (by with_unfolding_all rfl))
    (of_decide_eq_true (by with_unfolding_all rfl)) (of_decide_eq_true (by with_unfolding_all rfl))

theorem list_getD_mem {α : Type} (l : List α) (i : ℕ) (d : α) (h : i < l.length) :
    l.getD i d ∈ l := by
  rw [List.getD_eq_getElem?_getD, List.getElem?_eq_getElem h]
  exact List.getElem_mem h

theorem trimLoop_invariants (L : M3 ℚ) (tol : ℚ) (ps : List (V3 ℚ)) (n : ℕ) (st st2 : TrimState)
    (h : trimLoop L tol st (List.enumFrom n ps) = some st2)
    (hkl : st.kept.length = st.extracted.length)
    (hlt : ∀ j ∈ st.extracted, j < n) :
    ∃ extNew mapNew,
      st2.kept.length = st2.extracted.length ∧
      st2.extracted = st.extracted ++ extNew ∧
      st2.mapping = st.mapping ++ mapNew ∧
      mapNew.length = ps.length ∧
      (∀ j ∈ extNew, n ≤ j ∧ j < n + ps.length) ∧
      extNew.Chain' (· < ·) ∧
      (∀ k, k < ps.length →
        mapNew.getD k 0 ∈ st2.extracted ∧
        mapNew.getD k 0 ≤ n + k ∧
        (mapNew.getD k 0 = n + k ↔ (n + k) ∈ extNew)) := by
  induction ps generalizing n st with
  | nil =>
    rw [show List.enumFrom n [] = [] from rfl, trimLoop] at h
    refine ⟨[], [], ?_⟩
    simp only [Option.some.injEq] at h
    subst h
    simp [hkl]
  | cons p rest ih =>
    rw [enumFrom_cons, trimLoop] at h
    by_cases h0 : (overlapIndices L tol st.kept p).length = 0
    · rw [if_pos h0] at h
      obtain ⟨eN, mN, hk2, he2, hm2, hlen, hbnd, hch, hent⟩ :=
        ih (n + 1) ⟨st.kept ++ [p], st.extracted ++ [n], st.mapping ++ [n]⟩ h
          (by simp [hkl])
          (by
            intro j hj
            simp only [List.mem_append, List.mem_singleton] at hj
            rcases hj with hj | hj
            · exact Nat.lt_succ_of_lt (hlt j hj)
            · omega)
      refine ⟨n :: eN, n :: mN, hk2, ?_, ?_, ?_, ?_, ?_, ?_⟩
      · rw [he2]; simp
      · rw [hm2]; simp
      · simp [hlen]
      · intro j hj
        simp only [List.length_cons]
        rcases List.mem_cons.mp hj with hj | hj
        · subst hj; omega
        · have := hbnd j hj
          omega
      · rw [List.chain'_cons']
        refine ⟨?_, hch⟩
        intro b hb
        have hbm : b ∈ eN := List.mem_of_mem_head? hb
        have := hbnd b hbm
        omega
      · intro k hk
        rcases k with _ | k
        · simp only [List.getD_cons_zero]
          refine ⟨?_, by omega, ?_⟩
          · rw [he2]
            simp
          · simp
        · simp only [List.getD_cons_succ]
          simp only [List.length_cons] at hk
          obtain ⟨ha, hb2, hc⟩ := hent k (by omega)
          refine ⟨ha, by omega, ?_⟩
          rw [show n + (k + 1) = (n + 1) + k from by omega]
          rw [hc]
          constructor
          · intro hx; exact List.mem_cons_of_mem _ hx
          · intro hx
            rcases List.mem_cons.mp hx with hx | hx
            · omega
            · exact hx
    · rw [if_neg h0] at h
      by_cases h1 : (overlapIndices L tol st.kept p).length = 1
      · rw [if_pos h1] at h
        obtain ⟨eN, mN, hk2, he2, hm2, hlen, hbnd, hch, hent⟩ :=
          ih (n + 1)
            ⟨st.kept, st.extracted,
              st.mapping ++ [st.extracted.getD ((overlapIndices L tol st.kept p).headD 0) 0]⟩ h
            hkl
            (fun j hj => Nat.lt_succ_of_lt (hlt j hj))
        set v := st.extracted.getD ((overlapIndices L tol st.kept p).headD 0) 0 with hv
        have hvmem : v ∈ st.extracted := by
          have hne : overlapIndices L tol st.kept p ≠ [] := by
            intro hcon; rw [hcon] at h1; simp at h1
          have hhead : (overlapIndices L tol st.kept p).headD 0 ∈
              overlapIndices L tol st.kept p := by
            rcases hl : overlapIndices L tol st.kept p with _ | ⟨a, tl⟩
            · exact absurd hl hne
            · simp
          have hlt2 := overlapIndices_mem_lt L tol st.kept p _ hhead
          rw [hkl] at hlt2
          exact list_getD_mem _ _ _ hlt2
        have hvlt : v < n := hlt v hvmem
        refine ⟨eN, v :: mN, hk2, he2, ?_, ?_, ?_, hch, ?_⟩
        · rw [hm2]; simp
        · simp [hlen]
        · intro j hj
          have := hbnd j hj
          simp only [List.length_cons]
          omega
        · intro k hk
          rcases k with _ | k
          · simp only [List.getD_cons_zero]
            refine ⟨?_, by omega, ?_⟩
            · rw [he2]
              exact List.mem_append_left _ hvmem
            · constructor
              · intro hx; omega
              · intro hx
                have := (hbnd _ hx).1
                omega
          · simp only [List.getD_cons_succ]
            simp only [List.length_cons] at hk
            obtain ⟨ha, hb2, hc⟩ := hent k (by omega)
            refine ⟨ha, by omega, ?_⟩
            rw [show n + (k + 1) = (n + 1) + k from by omega]
            exact hc
      · rw [if_neg h1] at h
        exact absurd h (by simp)

theorem trimCell_props (axes : M3 ℚ) (cell : Cell) (tol : ℚ)
    (tc : Cell) (ext mp : List ℕ)
    (h : trimCell axes cell tol = some (tc, ext, mp)) :
    ext.Chain' (· < ·) ∧
    mp.length = cell.positions.length ∧
    (∀ k, k < mp.length →
      mp.getD k 0 ∈ ext ∧ mp.getD k 0 ≤ k ∧ (mp.getD k 0 = k ↔ k ∈ ext)) ∧
    tc.positions.length = ext.length ∧
    tc.numbers = ext.map (fun i => cell.numbers.getD i 0) ∧
    tc.masses = cell.masses.map (fun ms => ext.map (fun i => ms.getD i 0)) ∧
    tc.magmoms = cell.magmoms.map (fun ms => ext.map (fun i => ms.getD i 0)) := by
  unfold trimCell at h
  by_cases hdet : M3.det axes = 0
  · rw [if_pos hdet] at h; exact absurd h (by simp)
  · rw [if_neg hdet] at h
    rcases hloop : trimLoop (M3.mul (M3.transpose axes) cell.lattice) tol ⟨[], [], []⟩
        ((cell.positions.map
          (fun p => fracV (M3.rowMul p (M3.transpose (M3.inv axes))))).enum) with _ | st
    · rw [hloop] at h; exact absurd h (by simp)
    · rw [hloop] at h
      simp only [Option.some.injEq, Prod.mk.injEq] at h
      obtain ⟨htc, hext, hmp⟩ := h
      obtain ⟨eN, mN, hk2, he2, hm2, hlen, hbnd, hch, hent⟩ :=
        trimLoop_invariants (M3.mul (M3.transpose axes) cell.lattice) tol
          (cell.positions.map (fun p => fracV (M3.rowMul p (M3.transpose (M3.inv axes)))))
          0 ⟨[], [], []⟩ st hloop rfl (by intro j hj; simp at hj)
      simp only [List.nil_append] at he2 hm2
      have hlen2 : mN.length = cell.positions.length := by
        rw [hlen, List.length_map]
      subst hext hmp htc
      refine ⟨?_, ?_, ?_, ?_, rfl, rfl, rfl⟩
      · rw [he2]; exact hch
      · rw [hm2, hlen2]
      · intro k hk
        rw [hm2, hlen2] at hk
        obtain ⟨ha, hb2, hc⟩ := hent k (by rw [List.length_map]; exact hk)
        rw [hm2]
        refine ⟨ha, by omega, ?_⟩
        simp only [Nat.zero_add] at hc
        rw [he2]
        exact hc
      · rw [hk2, he2]

/-- C10: invariants of `trim_cell` for every successful call: kept source
indices are strictly increasing; the mapping table has one entry per input
atom; every entry is a kept source index not exceeding its own index, equal to
it exactly for kept atoms; the number of kept atoms equals the number of kept
indices; and the kept atoms' numbers, masses and magmoms are read off the
input atoms at the kept indices, in order. -/
theorem trim_cell_mapping_invariants (axes : M3 ℚ) (cell : Cell) (tol : ℚ)
    (tc : Cell) (ext mp : List ℕ)
    (h : trimCell axes cell tol = some (tc, ext, mp)) :
    ext.Chain' (· < ·) ∧
    mp.length = cell.positions.length ∧
    (∀ k, k < mp.length →
      mp.getD k 0 ∈ ext ∧ mp.getD k 0 ≤ k ∧ (mp.getD k 0 = k ↔ k ∈ ext)) ∧
    tc.positions.length = ext.length ∧
    tc.numbers = ext.map (fun i => cell.numbers.getD i 0) ∧
    tc.masses = cell.masses.map (fun ms => ext.map (fun i => ms.getD i 0)) ∧
    tc.magmoms = cell.magmoms.map (fun ms => ext.map (fun i => ms.getD i 0)) :=
  trimCell_props axes cell tol tc ext mp h

/-- Witness instantiating `trim_cell_mapping_invariants` on a concrete
three-atom cell whose last atom folds onto the first. -/
theorem trim_cell_mapping_invariants_witness :
    ([0, 1] : List ℕ).Chain' (· < ·) ∧
    ([0, 1, 0] : List ℕ).length = exCellC.positions.length ∧
    (∀ k, k < ([0, 1, 0] : List ℕ).length →
      ([0, 1, 0] : List ℕ).getD k 0 ∈ ([0, 1] : List ℕ) ∧
      ([0, 1, 0] : List ℕ).getD k 0 ≤ k ∧
      (([0, 1, 0] : List ℕ).getD k 0 = k ↔ k ∈ ([0, 1] : List ℕ))) ∧
    exCellCTrimmed.positions.length = ([0, 1] : List ℕ).length ∧
    exCellCTrimmed.numbers = ([0, 1] : List ℕ).map (fun i => exCellC.numbers.getD i 0) ∧
    exCellCTrimmed.masses =
      exCellC.masses.map (fun ms => ([0, 1] : List ℕ).map (fun i => ms.getD i 0)) ∧
    exCellCTrimmed.magmoms =
      exCellC.magmoms.map (fun ms => ([0, 1] : List ℕ).map (fun i => ms.getD i 0)) :=
  trim_cell_mapping_invariants M3.idM exCellC (1/10) exCellCTrimmed [0, 1] [0, 1, 0]
    (of_decide_eq_true (by with_unfolding_all rfl))

theorem frameComp_eq_zero {a b c : ℤ} (h : frameComp a b c = 0) :
    a = 0 ∧ b = 0 ∧ c = 0 := by
  unfold frameComp at h
  omega

theorem det_row0_zero (m : M3 ℤ) (hx : m.r0.x = 0) (hy : m.r0.y = 0) (hz : m.r0.z = 0) :
    M3.det m = 0 := by
  simp [M3.det, hx, hy, hz]

theorem det_row1_zero (m : M3 ℤ) (hx : m.r1.x = 0) (hy : m.r1.y = 0) (hz : m.r1.z = 0) :
    M3.det m = 0 := by
  simp [M3.det, hx, hy, hz]

theorem det_row2_zero (m : M3 ℤ) (hx : m.r2.x = 0) (hy : m.r2.y = 0) (hz : m.r2.z = 0) :
    M3.det m = 0 := by
  simp [M3.det, hx, hy, hz]

theorem surFrame_ne_zero (m : M3 ℤ) (h : M3.det m ≠ 0) :
    ¬((surFrame m).x = 0 ∨ (surFrame m).y = 0 ∨ (surFrame m).z = 0) := by
  rintro (hc | hc | hc)
  · obtain ⟨h1, h2, h3⟩ := frameComp_eq_zero hc
    exact h (det_row0_zero m h1 h2 h3)
  · obtain ⟨h1, h2, h3⟩ := frameComp_eq_zero hc
    exact h (det_row1_zero m h1 h2 h3)
  · obtain ⟨h1, h2, h3⟩ := frameComp_eq_zero hc
    exact h (det_row2_zero m h1 h2 h3)

theorem surMapOf_lt (m : M3 ℤ) (uc : Cell) :
    ∀ v ∈ surMapOf m uc, v < uc.positions.length := by
  intro v hv
  unfold surMapOf at hv
  rw [List.mem_flatMap] at hv
  obtain ⟨l, hl, hv2⟩ := hv
  rw [List.mem_range] at hl
  rw [List.eq_of_mem_replicate hv2]
  exact hl

theorem length_eq_sum_filter (lst : List ℕ) (N : ℕ) (hall : ∀ v ∈ lst, v < N) :
    lst.length = ∑ l ∈ Finset.range N, (lst.filter (fun v => v = l)).length := by
  induction lst with
  | nil => simp
  | cons a tl ih =>
    have ha : a ∈ Finset.range N := Finset.mem_range.mpr (hall a (List.mem_cons_self a tl))
    have htl := ih (fun v hv => hall v (List.mem_cons_of_mem a hv))
    simp only [List.length_cons, List.filter_cons]
    rw [htl]
    have hsplit : ∀ l : ℕ,
        ((if (a = l : Bool) then a :: tl.filter (fun v => v = l)
          else tl.filter (fun v => v = l)).length) =
        (if a = l then 1 else 0) + (tl.filter (fun v => v = l)).length := by
      intro l
      by_cases hal : a = l
      · simp [hal]
        omega
      · simp [hal]
    simp only [hsplit]
    rw [Finset.sum_add_distrib, Finset.sum_ite_eq (Finset.range N) a (fun _ => 1), if_pos ha]
    omega

theorem count_map_mul (l : List ℕ) (d i : ℕ) (hd : 0 < d) :
    ((l.map (fun v => v * d)).filter (fun v => v = i * d)).length =
      (l.filter (fun v => v = i)).length := by
  induction l with
  | nil => rfl
  | cons a tl ih =>
    simp only [List.map_cons, List.filter_cons]
    by_cases hai : a = i
    · subst hai
      simp [ih]
    · have hne : ¬(a * d = i * d) := fun hcon => hai (Nat.eq_of_mul_eq_mul_right hd hcon)
      simp only [decide_eq_false hne, decide_eq_false hai, Bool.false_eq_true, if_false]
      exact ih

theorem range'_succ_expand (s n : ℕ) :
    List.range' s (n + 1) = s :: List.range' (s + 1) n := rfl

theorem lookup_mul_range' (mult : ℕ) (hm : 0 < mult) :
    ∀ (n s i : ℕ), s ≤ i → i < s + n →
      ((List.range' s n).map (fun k => (k * mult, k))).lookup (i * mult) = some i := by
  intro n
  induction n with
  | zero => intro s i h1 h2; omega
  | succ k ih =>
    intro s i h1 h2
    rw [range'_succ_expand]
    by_cases hsi : s = i
    · subst hsi
      rw [List.map_cons, List.lookup]
      simp
    · have hne2 : (i * mult == s * mult) = false := by
        simp only [beq_eq_false_iff_ne, ne_eq]
        intro hcon
        exact hsi ((Nat.eq_of_mul_eq_mul_right hm hcon).symm)
      rw [List.map_cons, List.lookup, hne2]
      exact ih (s + 1) i (by omega) (by omega)

theorem enumFrom_range' (s n : ℕ) :
    List.enumFrom s (List.range' s n) = (List.range' s n).map (fun i => (i, i)) := by
  induction n generalizing s with
  | zero => rfl
  | succ k ih =>
    rw [range'_succ_expand, enumFrom_cons, ih (s + 1)]
    rfl

theorem u2uOf_mul_range (N mult : ℕ) :
    u2uOf ((List.range N).map (fun i => i * mult)) =
      (List.range N).map (fun k => (k * mult, k)) := by
  unfold u2uOf
  rw [List.enum_map]
  rw [show (List.range N).enum = List.enumFrom 0 (List.range' 0 N) from by
    rw [List.range_eq_range']; rfl]
  rw [enumFrom_range', ← List.range_eq_range', List.map_map, List.map_map]
  rfl

/-- C1: for a unit cell of `N` atoms and an integer supercell matrix of
positive determinant `D`, given a tolerance under which trimming deduplicates
exactly (each unit atom keeps exactly `D` replicas), the built supercell has
`N*D` atoms, its supercell→unitcell map takes the value `i*D` (the supercell
index of unit atom `i`, first-replica convention) exactly `D` times for each
`i < N`, the unitcell→supercell map is `i ↦ i*D`, and the unitcell→unitcell
map is the index-inverse of that. -/
theorem supercell_maps (uc : Cell) (m : M3 ℤ) (tol : ℚ)
    (tc : Cell) (ext mp : List ℕ)
    (hN : 0 < uc.positions.length)
    (hD : 0 < M3.det m)
    (htrim : trimCell (trimFrameOf m) (surCellOf m uc) tol = some (tc, ext, mp))
    (hdedup : ∀ l, l < uc.positions.length →
      ((ext.map (fun s => (surMapOf m uc).getD s 0)).filter (fun v => v = l)).length
        = (M3.det m).toNat) :
    createSupercell uc m tol = some
      { cell := tc
        success := true
        s2u := some (ext.map (fun s => (surMapOf m uc).getD s 0 * (M3.det m).toNat))
        u2s := some ((List.range uc.positions.length).map (fun i => i * (M3.det m).toNat))
        u2u := some (u2uOf ((List.range uc.positions.length).map
          (fun i => i * (M3.det m).toNat))) } ∧
    tc.positions.length = uc.positions.length * (M3.det m).toNat ∧
    (∀ i, i < uc.positions.length →
      ((ext.map (fun s => (surMapOf m uc).getD s 0 * (M3.det m).toNat)).filter
        (fun v => v = i * (M3.det m).toNat)).length = (M3.det m).toNat) ∧
    (∀ i, i < uc.positions.length →
      (u2uOf ((List.range uc.positions.length).map
        (fun j => j * (M3.det m).toNat))).lookup (i * (M3.det m).toNat) = some i) := by
  have hDn : 0 < (M3.det m).toNat := by omega
  have hvals : ∀ v ∈ ext.map (fun s => (surMapOf m uc).getD s 0), v < uc.positions.length := by
    intro v hv
    obtain ⟨s, hs, rfl⟩ := List.mem_map.mp hv
    by_cases hlen : s < (surMapOf m uc).length
    · exact surMapOf_lt m uc _ (list_getD_mem _ _ _ hlen)
    · rw [List.getD_eq_default]
      · exact hN
      · omega
  have hns : ext.length = uc.positions.length * (M3.det m).toNat := by
    have h1 : (ext.map (fun s => (surMapOf m uc).getD s 0)).length = ext.length :=
      List.length_map _ _
    rw [← h1, length_eq_sum_filter _ uc.positions.length hvals]
    rw [Finset.sum_congr rfl (fun l hl => hdedup l (Finset.mem_range.mp hl))]
    simp [Finset.sum_const, mul_comm]
  have htclen : tc.positions.length = ext.length :=
    (trimCell_props (trimFrameOf m) (surCellOf m uc) tol tc ext mp htrim).2.2.2.1
  have hmulti : tc.positions.length / uc.positions.length = (M3.det m).toNat := by
    rw [htclen, hns, Nat.mul_div_cancel_left _ hN]
  have hcast : (((M3.det m).toNat : ℕ) : ℤ) = M3.det m := Int.toNat_of_nonneg hD.le
  unfold createSupercell
  rw [if_neg (surFrame_ne_zero m (by omega))]
  simp only [htrim]
  rw [if_neg (by omega)]
  rw [if_neg (by rw [hmulti, hcast]; simp)]
  simp only [hmulti]
  refine ⟨by trivial, htclen.trans hns, ?_, ?_⟩
  · intro i hi
    have hcomp : ext.map (fun s => (surMapOf m uc).getD s 0 * (M3.det m).toNat) =
        (ext.map (fun s => (surMapOf m uc).getD s 0)).map (fun v => v * (M3.det m).toNat) := by
      rw [List.map_map]
      rfl
    rw [hcomp, count_map_mul _ _ _ hDn]
    exact hdedup i hi
  · intro i hi
    rw [u2uOf_mul_range, List.range_eq_range']
    exact lookup_mul_range' _ hDn uc.positions.length 0 i (by omega) (by omega)

/-- Witness instantiating `supercell_maps`: one atom, matrix `diag(1,1,2)`. -/
theorem supercell_maps_witness :
    createSupercell ucA mA (1/10) = some
      { cell := exSuperTrimmed
        success := true
        s2u := some (([0, 1] : List ℕ).map (fun s => (surMapOf mA ucA).getD s 0 * (M3.det mA).toNat))
        u2s := some ((List.range ucA.positions.length).map (fun i => i * (M3.det mA).toNat))
        u2u := some (u2uOf ((List.range ucA.positions.length).map
          (fun i => i * (M3.det mA).toNat))) } ∧
    exSuperTrimmed.positions.length = ucA.positions.length * (M3.det mA).toNat ∧
    (∀ i, i < ucA.positions.length →
      ((([0, 1] : List ℕ).map (fun s => (surMapOf mA ucA).getD s 0 * (M3.det mA).toNat)).filter
        (fun v => v = i * (M3.det mA).toNat)).length = (M3.det mA).toNat) ∧
    (∀ i, i < ucA.positions.length →
      (u2uOf ((List.range ucA.positions.length).map
        (fun j => j * (M3.det mA).toNat))).lookup (i * (M3.det mA).toNat) = some i) :=
  supercell_maps ucA mA (1/10) exSuperTrimmed [0, 1] [0, 1]
    (of_decide_eq_true (by with_unfolding_all rfl))
    (of_decide_eq_true (by with_unfolding_all rfl))
    (of_decide_eq_true (by with_unfolding_all rfl))
    (of_decide_eq_true (by with_unfolding_all rfl))

set_option maxRecDepth 40000 in
/-- C6 evidence: `get_Delaunay_reduction` returns a basis normally in both
failure modes, instead of propagating an error.  On the zero (degenerate)
lattice no 3 of the 7 candidates are independent, yet the zero basis is
returned with only the `degenerate` condition (which Python merely prints).
On a skewed lattice needing 120 Selling iterations the 100-iteration bound is
hit, and the partially reduced basis is returned with only the `converged`
flag false (again only printed in Python). -/
theorem delaunay_failure_returns_basis :
    getDelaunayReduction zeroLat (1/100000) =
      { basis := zeroLat, converged := true, degenerate := true } ∧
    getDelaunayReduction skewLat (1/100000) =
      { basis := ⟨⟨1, 0, 0⟩, ⟨0, 0, 1⟩, ⟨10, 1, 0⟩⟩, converged := false, degenerate := false } :=
  ⟨of_decide_eq_true (by with_unfolding_all rfl),
   of_decide_eq_true (by with_unfolding_all rfl)⟩

set_option maxRecDepth 40000 in
/-- C2 evidence: for the non-degenerate lattice `[[1,0,0],[60,1,0],[0,0,1]]`
the reduction gives up after 100 iterations and returns an unreduced basis,
for which the fractional vector `(0,0,1/2)` (components in `(-1,1)`) has a
lattice translation — offset `(5,0,-1)`, outside `{-1,0,1}^3` — strictly
shorter than every one of the 27 candidate images: the 27-image search is not
exhaustive over the function's output. -/
theorem delaunay_27_not_exhaustive :
    M3.det skewLat ≠ 0 ∧
    V3.sqNorm (M3.rowMul ((⟨0, 0, 1/2⟩ : V3 ℚ) + ⟨5, 0, -1⟩)
        (getDelaunayReduction skewLat (1/100000)).basis) <
      qmin (candidateSqs ⟨0, 0, 1/2⟩ (getDelaunayReduction skewLat (1/100000)).basis) :=
  ⟨of_decide_eq_true (by with_unfolding_all rfl),
   of_decide_eq_true (by with_unfolding_all rfl)⟩

set_option maxRecDepth 40000 in
/-- C3 counterexample: for the non-degenerate lattice
`[[1,0,0],[-9/10,7/10,0],[0,0,1]]` and tolerance `1e-5`, the basis returned
by `get_Delaunay_reduction` contains the pair `(1/10,7/10,0)`, `(1,0,0)`
whose dot product `1/10` exceeds the tolerance: the returned triple does not
satisfy the pairwise-dot bound claimed for it. -/
theorem delaunay_dot_counterexample :
    M3.det acuteLat ≠ 0 ∧
    V3.dot (getDelaunayReduction acuteLat (1/100000)).basis.r0
        (getDelaunayReduction acuteLat (1/100000)).basis.r1 >
      1/100000 :=
  ⟨of_decide_eq_true (by with_unfolding_all rfl),
   of_decide_eq_true (by with_unfolding_all rfl)⟩

namespace V3

theorem neg_x [Neg α] (a : V3 α) : (-a).x = -a.x := rfl

theorem neg_y [Neg α] (a : V3 α) : (-a).y = -a.y := rfl

theorem neg_z [Neg α] (a : V3 α) : (-a).z = -a.z := rfl

theorem zero_x [Zero α] : (0 : V3 α).x = 0 := rfl

theorem zero_y [Zero α] : (0 : V3 α).y = 0 := rfl

theorem zero_z [Zero α] : (0 : V3 α).z = 0 := rfl

end V3

theorem rowMul_zero (m : M3 ℚ) : M3.rowMul (0 : V3 ℚ) m = 0 := by
  rcases m with ⟨⟨a, b, c⟩, ⟨d, e, f⟩, ⟨g, h, i⟩⟩
  simp only [M3.rowMul, V3.ext_iff', V3.zero_x, V3.zero_y, V3.zero_z]
  norm_num

theorem rows_indep (m : M3 ℚ) (hdet : M3.det m ≠ 0) (c : V3 ℚ)
    (hc : M3.rowMul c m = 0) : c = 0 := by
  have h1 : M3.rowMul (M3.rowMul c m) (M3.inv m) = M3.rowMul c (M3.mul m (M3.inv m)) :=
    M3.rowMul_rowMul c m (M3.inv m)
  rw [hc, rowMul_zero, M3.mul_inv m hdet, M3.rowMul_idM] at h1
  exact h1.symm

theorem det_eq_zero_of_rel (m : M3 ℚ) (c : V3 ℚ) (hc0 : c ≠ 0)
    (hc : M3.rowMul c m = 0) : M3.det m = 0 := by
  by_contra hdet
  exact hc0 (rows_indep m hdet c hc)

theorem det_swap01 (a b c : V3 ℚ) : M3.det ⟨b, a, c⟩ = -M3.det ⟨a, b, c⟩ := by
  rcases a with ⟨a1, a2, a3⟩
  rcases b with ⟨b1, b2, b3⟩
  rcases c with ⟨c1, c2, c3⟩
  simp only [M3.det]
  ring

theorem det_swap12 (a b c : V3 ℚ) : M3.det ⟨a, c, b⟩ = -M3.det ⟨a, b, c⟩ := by
  rcases a with ⟨a1, a2, a3⟩
  rcases b with ⟨b1, b2, b3⟩
  rcases c with ⟨c1, c2, c3⟩
  simp only [M3.det]
  ring

theorem det_swap02 (a b c : V3 ℚ) : M3.det ⟨c, b, a⟩ = -M3.det ⟨a, b, c⟩ := by
  rcases a with ⟨a1, a2, a3⟩
  rcases b with ⟨b1, b2, b3⟩
  rcases c with ⟨c1, c2, c3⟩
  simp only [M3.det]
  ring

theorem abs_det_perm (a b c : V3 ℚ) :
    |M3.det ⟨b, a, c⟩| = |M3.det ⟨a, b, c⟩| ∧
    |M3.det ⟨a, c, b⟩| = |M3.det ⟨a, b, c⟩| ∧
    |M3.det ⟨b, c, a⟩| = |M3.det ⟨a, b, c⟩| ∧
    |M3.det ⟨c, a, b⟩| = |M3.det ⟨a, b, c⟩| ∧
    |M3.det ⟨c, b, a⟩| = |M3.det ⟨a, b, c⟩| := by
  refine ⟨by rw [det_swap01]; exact abs_neg _,
    by rw [det_swap12]; exact abs_neg _, ?_, ?_,
    by rw [det_swap02]; exact abs_neg _⟩
  · rw [det_swap01 c b a, det_swap02 a b c]
    simp [abs_neg]
  · rw [det_swap12 c b a, det_swap02 a b c]
    simp [abs_neg]

theorem reduceBases_invariant (e e2 : E4) (tol : ℚ)
    (hsum : e.b3 = -(e.b0 + e.b1 + e.b2))
    (h : reduceBases e tol = some e2) :
    e2.b3 = -(e2.b0 + e2.b1 + e2.b2) ∧ det3 e2 = -det3 e := by
  obtain ⟨B0, B1, B2, B3⟩ := e
  simp only at hsum
  subst hsum
  unfold reduceBases at h
  simp only at h
  split_ifs at h with h1 h2 h3 h4 h5 h6 <;>
    (simp only [Option.some.injEq] at h; subst h) <;>
    constructor <;>
    first
    | (rcases B0 with ⟨x0, y0, z0⟩
       rcases B1 with ⟨x1, y1, z1⟩
       rcases B2 with ⟨x2, y2, z2⟩
       simp only [det3, M3.det, V3.ext_iff', V3.add_x, V3.add_y, V3.add_z,
         V3.neg_x, V3.neg_y, V3.neg_z, V3.sub_x, V3.sub_y, V3.sub_z]
       norm_num
       try ring_nf
       try (constructor <;> ring)
       try ring
       try exact ⟨trivial, trivial⟩)

theorem V3.sub_self' (v : V3 ℚ) : v - v = 0 := by
  rcases v with ⟨a, b, c⟩
  simp only [V3.ext_iff', V3.sub_x, V3.sub_y, V3.sub_z, V3.zero_x, V3.zero_y, V3.zero_z]
  norm_num

theorem V3.eq_of_sub_eq_zero' {a b : V3 ℚ} (h : a - b = 0) : a = b := by
  rcases a with ⟨a1, a2, a3⟩
  rcases b with ⟨b1, b2, b3⟩
  simp only [V3.ext_iff', V3.sub_x, V3.sub_y, V3.sub_z, V3.zero_x, V3.zero_y, V3.zero_z] at h ⊢
  exact ⟨by linarith [h.1], by linarith [h.2.1], by linarith [h.2.2]⟩

theorem rowMul_sub (c c' : V3 ℚ) (m : M3 ℚ) :
    M3.rowMul (c - c') m = M3.rowMul c m - M3.rowMul c' m := by
  rcases c with ⟨a1, a2, a3⟩
  rcases c' with ⟨b1, b2, b3⟩
  rcases m with ⟨⟨p1, p2, p3⟩, ⟨q1, q2, q3⟩, ⟨r1, r2, r3⟩⟩
  simp only [M3.rowMul, V3.ext_iff', V3.sub_x, V3.sub_y, V3.sub_z]
  refine ⟨by ring, by ring, by ring⟩

theorem rowMul_inj (m : M3 ℚ) (hdet : M3.det m ≠ 0) {c c' : V3 ℚ}
    (h : M3.rowMul c m = M3.rowMul c' m) : c = c' := by
  have hz : M3.rowMul (c - c') m = 0 := by
    rw [rowMul_sub, h, V3.sub_self']
  exact V3.eq_of_sub_eq_zero' (rows_indep m hdet _ hz)

theorem rowMul_cb0 (m : M3 ℚ) : M3.rowMul ⟨1, 0, 0⟩ m = m.r0 := by
  rcases m with ⟨⟨p1, p2, p3⟩, ⟨q1, q2, q3⟩, ⟨r1, r2, r3⟩⟩
  simp only [M3.rowMul, V3.ext_iff']
  refine ⟨by ring, by ring, by ring⟩

theorem rowMul_cb1 (m : M3 ℚ) : M3.rowMul ⟨0, 1, 0⟩ m = m.r1 := by
  rcases m with ⟨⟨p1, p2, p3⟩, ⟨q1, q2, q3⟩, ⟨r1, r2, r3⟩⟩
  simp only [M3.rowMul, V3.ext_iff']
  refine ⟨by ring, by ring, by ring⟩

theorem rowMul_cb2 (m : M3 ℚ) : M3.rowMul ⟨0, 0, 1⟩ m = m.r2 := by
  rcases m with ⟨⟨p1, p2, p3⟩, ⟨q1, q2, q3⟩, ⟨r1, r2, r3⟩⟩
  simp only [M3.rowMul, V3.ext_iff']
  refine ⟨by ring, by ring, by ring⟩

theorem rowMul_cs01 (m : M3 ℚ) : M3.rowMul ⟨1, 1, 0⟩ m = m.r0 + m.r1 := by
  rcases m with ⟨⟨p1, p2, p3⟩, ⟨q1, q2, q3⟩, ⟨r1, r2, r3⟩⟩
  simp only [M3.rowMul, V3.ext_iff', V3.add_x, V3.add_y, V3.add_z]
  refine ⟨by ring, by ring, by ring⟩

theorem rowMul_cs12 (m : M3 ℚ) : M3.rowMul ⟨0, 1, 1⟩ m = m.r1 + m.r2 := by
  rcases m with ⟨⟨p1, p2, p3⟩, ⟨q1, q2, q3⟩, ⟨r1, r2, r3⟩⟩
  simp only [M3.rowMul, V3.ext_iff', V3.add_x, V3.add_y, V3.add_z]
  refine ⟨by ring, by ring, by ring⟩

theorem rowMul_cs20 (m : M3 ℚ) : M3.rowMul ⟨1, 0, 1⟩ m = m.r2 + m.r0 := by
  rcases m with ⟨⟨p1, p2, p3⟩, ⟨q1, q2, q3⟩, ⟨r1, r2, r3⟩⟩
  simp only [M3.rowMul, V3.ext_iff', V3.add_x, V3.add_y, V3.add_z]
  refine ⟨by ring, by ring, by ring⟩

theorem det_rowMul3 (a b c : V3 ℚ) (m : M3 ℚ) :
    M3.det ⟨M3.rowMul a m, M3.rowMul b m, M3.rowMul c m⟩ =
      M3.det ⟨a, b, c⟩ * M3.det m := by
  rcases a with ⟨a1, a2, a3⟩
  rcases b with ⟨b1, b2, b3⟩
  rcases c with ⟨c1, c2, c3⟩
  rcases m with ⟨⟨p1, p2, p3⟩, ⟨q1, q2, q3⟩, ⟨r1, r2, r3⟩⟩
  simp only [M3.det, M3.rowMul]
  ring

theorem candidates7_eq_map (e : E4) (hb3 : e.b3 = -(e.b0 + e.b1 + e.b2)) :
    candidates7 e = coeffs7.map (fun c => M3.rowMul c ⟨e.b0, e.b1, e.b2⟩) := by
  obtain ⟨B0, B1, B2, B3⟩ := e
  simp only at hb3
  subst hb3
  rcases B0 with ⟨x0, y0, z0⟩
  rcases B1 with ⟨x1, y1, z1⟩
  rcases B2 with ⟨x2, y2, z2⟩
  simp only [candidates7, coeffs7, List.map_cons, List.map_nil, M3.rowMul,
    V3.ext_iff', V3.add_x, V3.add_y, V3.add_z, V3.neg_x, V3.neg_y, V3.neg_z,
    List.cons.injEq, and_true]
  norm_num
  refine ⟨⟨by ring, by ring, by ring⟩, by ring, by ring, by ring⟩

theorem coeffs7_nodup : coeffs7.Nodup :=
  of_decide_eq_true (by with_unfolding_all rfl)

theorem candidates7_nodup (e : E4) (hb3 : e.b3 = -(e.b0 + e.b1 + e.b2))
    (hd : det3 e ≠ 0) : (candidates7 e).Nodup := by
  rw [candidates7_eq_map e hb3]
  have hinj : Function.Injective (fun c => M3.rowMul c (⟨e.b0, e.b1, e.b2⟩ : M3 ℚ)) := by
    intro a b h
    exact rowMul_inj _ hd h
  exact List.Nodup.map hinj coeffs7_nodup

theorem sumCoeffs_ne_basis :
    ∀ c ∈ sumCoeffs, c ≠ (⟨1, 0, 0⟩ : V3 ℚ) ∧ c ≠ ⟨0, 1, 0⟩ ∧ c ≠ ⟨0, 0, 1⟩ :=
  of_decide_eq_true (by with_unfolding_all rfl)

theorem sumPerm_facts :
    ∀ p ∈ sumPermList,
      p.1 ∈ sumCoeffs ∧ p.2.1 ∈ sumCoeffs ∧ p.2.2 ∈ sumCoeffs ∧
      ((⟨1, 1, 0⟩ : V3 ℚ) = p.1 ∨ (⟨1, 1, 0⟩ : V3 ℚ) = p.2.1 ∨ (⟨1, 1, 0⟩ : V3 ℚ) = p.2.2) ∧
      ((⟨0, 1, 1⟩ : V3 ℚ) = p.1 ∨ (⟨0, 1, 1⟩ : V3 ℚ) = p.2.1 ∨ (⟨0, 1, 1⟩ : V3 ℚ) = p.2.2) ∧
      ((⟨1, 0, 1⟩ : V3 ℚ) = p.1 ∨ (⟨1, 0, 1⟩ : V3 ℚ) = p.2.1 ∨ (⟨1, 0, 1⟩ : V3 ℚ) = p.2.2) :=
  of_decide_eq_true (by with_unfolding_all rfl)

theorem sumPerm_pair_det :
    ∀ p ∈ sumPermList, ∀ c ∈ coeffs7,
      (c ≠ p.2.1 → c ≠ p.2.2 → 1 ≤ |M3.det ⟨c, p.2.1, p.2.2⟩|) ∧
      (c ≠ p.1 → c ≠ p.2.2 → 1 ≤ |M3.det ⟨p.1, c, p.2.2⟩|) ∧
      (c ≠ p.1 → c ≠ p.2.1 → 1 ≤ |M3.det ⟨p.1, p.2.1, c⟩|) :=
  of_decide_eq_true (by with_unfolding_all rfl)

theorem coeff_det_classify :
    ∀ c0 ∈ coeffs7, ∀ c1 ∈ coeffs7, ∀ c2 ∈ coeffs7,
      M3.det ⟨c0, c1, c2⟩ = 0 ∨ |M3.det ⟨c0, c1, c2⟩| = 1 ∨
        (|M3.det ⟨c0, c1, c2⟩| = 2 ∧ (c0, c1, c2) ∈ sumPermList) :=
  of_decide_eq_true (by with_unfolding_all rfl)

theorem sellingLoop_invariant (tol : ℚ) (n : ℕ) (e : E4)
    (hsum : e.b3 = -(e.b0 + e.b1 + e.b2)) :
    (sellingLoop tol n e).1.b3 =
        -((sellingLoop tol n e).1.b0 + (sellingLoop tol n e).1.b1 +
          (sellingLoop tol n e).1.b2) ∧
      |det3 (sellingLoop tol n e).1| = |det3 e| := by
  induction n generalizing e with
  | zero => exact ⟨hsum, rfl⟩
  | succ k ih =>
    rw [sellingLoop]
    cases hr : reduceBases e tol with
    | none => exact ⟨hsum, rfl⟩
    | some e2 =>
      obtain ⟨h1, h2⟩ := reduceBases_invariant e e2 tol hsum hr
      obtain ⟨h3, h4⟩ := ih e2 h1
      exact ⟨h3, by rw [h4, h2, abs_neg]⟩

theorem scan1_some (pred : M3 ℚ → Bool) (x y : V3 ℚ) :
    ∀ (l : List (V3 ℚ)) (t : M3 ℚ), scan1 pred x y l = some t →
      t.r0 = x ∧ t.r1 = y ∧ pred t = true ∧
        ∃ l₁ l₂, l = l₁ ++ t.r2 :: l₂ ∧ ∀ u ∈ l₁, pred ⟨x, y, u⟩ = false := by
  intro l
  induction l with
  | nil => intro t h; simp [scan1] at h
  | cons z rest ih =>
    intro t h
    rw [scan1] at h
    split_ifs at h with hp
    · rw [Option.some.injEq] at h
      subst h
      exact ⟨rfl, rfl, hp, [], rest, rfl, by simp⟩
    · obtain ⟨h0, h1, h2, l₁, l₂, hdec, hfail⟩ := ih t h
      refine ⟨h0, h1, h2, z :: l₁, l₂, by rw [hdec]; rfl, ?_⟩
      intro u hu
      rcases List.mem_cons.mp hu with hu | hu
      · subst hu
        exact Bool.eq_false_iff.mpr hp
      · exact hfail u hu

theorem scan1_none (pred : M3 ℚ → Bool) (x y : V3 ℚ) :
    ∀ (l : List (V3 ℚ)), scan1 pred x y l = none → ∀ u ∈ l, pred ⟨x, y, u⟩ = false := by
  intro l
  induction l with
  | nil => intro _ u hu; simp at hu
  | cons z rest ih =>
    intro h u hu
    rw [scan1] at h
    split_ifs at h with hp
    rcases List.mem_cons.mp hu with hu | hu
    · subst hu; exact Bool.eq_false_iff.mpr hp
    · exact ih h u hu

theorem scan2_some (pred : M3 ℚ → Bool) (x : V3 ℚ) :
    ∀ (l : List (V3 ℚ)) (t : M3 ℚ), scan2 pred x l = some t →
      t.r0 = x ∧ ∃ l₁ l₂, l = l₁ ++ t.r1 :: l₂ ∧ scan1 pred x t.r1 l₂ = some t ∧
        ∀ u ∈ l₁, ∀ w ∈ t.r1 :: l₂, pred ⟨x, u, w⟩ = false := by
  intro l
  induction l with
  | nil => intro t h; simp [scan2] at h
  | cons y rest ih =>
    intro t h
    rw [scan2] at h
    cases hm : scan1 pred x y rest with
    | some r =>
      simp only [hm, Option.some.injEq] at h
      subst h
      obtain ⟨h0, h1, h2, _, _, _, _⟩ := scan1_some pred x y rest r hm
      refine ⟨h0, [], rest, by rw [h1]; rfl, by rw [h1]; exact hm, by simp⟩
    | none =>
      simp only [hm] at h
      obtain ⟨h0, l₁, l₂, hdec, hs1, hfail⟩ := ih t h
      refine ⟨h0, y :: l₁, l₂, by rw [hdec]; rfl, hs1, ?_⟩
      intro u hu w hw
      rcases List.mem_cons.mp hu with hu | hu
      · subst hu
        apply scan1_none pred x u rest hm
        rw [hdec]
        rcases List.mem_cons.mp hw with hw | hw
        · subst hw; simp
        · simp [hw]
      · exact hfail u hu w hw

theorem scan2_none (pred : M3 ℚ → Bool) (x : V3 ℚ) :
    ∀ (l : List (V3 ℚ)), scan2 pred x l = none →
      ∀ v w : V3 ℚ, List.Sublist [v, w] l → pred ⟨x, v, w⟩ = false := by
  intro l
  induction l with
  | nil => intro _ v w hsub; simp at hsub
  | cons a rest ih =>
    intro h v w hsub
    rw [scan2] at h
    cases hm : scan1 pred x a rest with
    | some r => simp [hm] at h
    | none =>
      simp only [hm] at h
      cases hsub with
      | cons _ hsub2 => exact ih h v w hsub2
      | cons₂ _ hsub2 =>
        exact scan1_none pred x a rest hm w (List.singleton_sublist.mp hsub2)

theorem scan3_some (pred : M3 ℚ → Bool) :
    ∀ (l : List (V3 ℚ)) (t : M3 ℚ), scan3 pred l = some t →
      ∃ l₁ l₂, l = l₁ ++ t.r0 :: l₂ ∧ scan2 pred t.r0 l₂ = some t ∧
        ∀ u ∈ l₁, ∀ v w : V3 ℚ, List.Sublist [v, w] (t.r0 :: l₂) → pred ⟨u, v, w⟩ = false := by
  intro l
  induction l with
  | nil => intro t h; simp [scan3] at h
  | cons a rest ih =>
    intro t h
    rw [scan3] at h
    cases hm : scan2 pred a rest with
    | some r =>
      simp only [hm, Option.some.injEq] at h
      subst h
      obtain ⟨h0, _, _, _, _, _⟩ := scan2_some pred a rest r hm
      refine ⟨[], rest, by rw [h0]; rfl, by rw [h0]; exact hm, by simp⟩
    | none =>
      simp only [hm] at h
      obtain ⟨l₁, l₂, hdec, hs2, hfail⟩ := ih t h
      refine ⟨a :: l₁, l₂, by rw [hdec]; rfl, hs2, ?_⟩
      intro u hu v w hsub
      rcases List.mem_cons.mp hu with hu | hu
      · subst hu
        apply scan2_none pred u rest hm v w
        have hsub2 : List.Sublist (t.r0 :: l₂) rest := by
          rw [hdec]; exact List.sublist_append_right l₁ _
        exact hsub.trans hsub2
      · exact hfail u hu v w hsub

theorem scan3_none (pred : M3 ℚ → Bool) :
    ∀ (l : List (V3 ℚ)), scan3 pred l = none →
      ∀ x y z : V3 ℚ, List.Sublist [x, y, z] l → pred ⟨x, y, z⟩ = false := by
  intro l
  induction l with
  | nil => intro _ x y z hsub; simp at hsub
  | cons a rest ih =>
    intro h x y z hsub
    rw [scan3] at h
    cases hm : scan2 pred a rest with
    | some r => simp [hm] at h
    | none =>
      simp only [hm] at h
      cases hsub with
      | cons _ hsub2 => exact ih h x y z hsub2
      | cons₂ _ hsub2 => exact scan2_none pred a rest hm y z hsub2

theorem perm_two {α : Type} {a b : α} {l : List α} (h : l.Perm [a, b]) :
    l = [a, b] ∨ l = [b, a] := by
  have hlen := h.length_eq
  rcases l with _ | ⟨x, _ | ⟨y, _ | ⟨z, t⟩⟩⟩ <;> simp at hlen
  have hx : x ∈ [a, b] := h.subset (by simp)
  simp only [List.mem_cons, List.not_mem_nil, or_false] at hx
  rcases hx with hx | hx
  · subst hx
    have h2 := (List.perm_cons x).mp h
    rw [List.perm_singleton] at h2
    obtain ⟨hy⟩ : y = b ∧ True := by simpa using h2
    subst hy
    exact Or.inl rfl
  · subst hx
    have hswap : ([x, a] : List α).Perm [a, x] := List.Perm.swap a x []
    have h2 := (List.perm_cons x).mp (h.trans hswap.symm)
    rw [List.perm_singleton] at h2
    obtain ⟨hy⟩ : y = a ∧ True := by simpa using h2
    subst hy
    exact Or.inr rfl

theorem perm_three {α : Type} {a b c : α} {l : List α} (h : l.Perm [a, b, c]) :
    l = [a, b, c] ∨ l = [a, c, b] ∨ l = [b, a, c] ∨ l = [b, c, a] ∨
      l = [c, a, b] ∨ l = [c, b, a] := by
  have hlen := h.length_eq
  rcases l with _ | ⟨x, _ | ⟨y, _ | ⟨z, _ | ⟨w, t⟩⟩⟩⟩ <;> simp at hlen
  have hx : x ∈ [a, b, c] := h.subset (by simp)
  simp only [List.mem_cons, List.not_mem_nil, or_false] at hx
  rcases hx with hx | hx | hx
  · subst hx
    have h2 := (List.perm_cons x).mp h
    rcases perm_two h2 with h3 | h3
    · obtain ⟨hy, hz⟩ : y = b ∧ z = c := by simpa using h3
      subst hy; subst hz
      exact Or.inl rfl
    · obtain ⟨hy, hz⟩ : y = c ∧ z = b := by simpa using h3
      subst hy; subst hz
      exact Or.inr (Or.inl rfl)
  · subst hx
    have hswap : ([x, a, c] : List α).Perm [a, x, c] := List.Perm.swap a x [c]
    have h2 := (List.perm_cons x).mp (h.trans hswap.symm)
    rcases perm_two h2 with h3 | h3
    · obtain ⟨hy, hz⟩ : y = a ∧ z = c := by simpa using h3
      subst hy; subst hz
      exact Or.inr (Or.inr (Or.inl rfl))
    · obtain ⟨hy, hz⟩ : y = c ∧ z = a := by simpa using h3
      subst hy; subst hz
      exact Or.inr (Or.inr (Or.inr (Or.inl rfl)))
  · subst hx
    have hperm2 : ([x, a, b] : List α).Perm [a, b, x] :=
      (List.Perm.swap a x [b]).trans ((List.Perm.swap b x []).cons a)
    have h2 := (List.perm_cons x).mp (h.trans hperm2.symm)
    rcases perm_two h2 with h3 | h3
    · obtain ⟨hy, hz⟩ : y = a ∧ z = b := by simpa using h3
      subst hy; subst hz
      exact Or.inr (Or.inr (Or.inr (Or.inr (Or.inl rfl))))
    · obtain ⟨hy, hz⟩ : y = b ∧ z = a := by simpa using h3
      subst hy; subst hz
      exact Or.inr (Or.inr (Or.inr (Or.inr (Or.inr rfl))))

theorem det_zero_of_sum_short (a b c : V3 ℚ)
    (h1 : V3.sqNorm (a + b) ≤ V3.sqNorm c)
    (h2 : V3.sqNorm (b + c) ≤ V3.sqNorm a)
    (h3 : V3.sqNorm (c + a) ≤ V3.sqNorm b) :
    M3.det ⟨a, b, c⟩ = 0 := by
  rcases a with ⟨x0, y0, z0⟩
  rcases b with ⟨x1, y1, z1⟩
  rcases c with ⟨x2, y2, z2⟩
  simp only [V3.sqNorm, V3.dot, V3.add_x, V3.add_y, V3.add_z] at h1 h2 h3
  have hS : (x0 + x1 + x2) ^ 2 + (y0 + y1 + y2) ^ 2 + (z0 + z1 + z2) ^ 2 ≤ 0 := by
    nlinarith [h1, h2, h3]
  have hx : x0 + x1 + x2 = 0 := by
    have h4 : (x0 + x1 + x2) ^ 2 = 0 :=
      le_antisymm (by linarith [sq_nonneg (y0 + y1 + y2), sq_nonneg (z0 + z1 + z2)])
        (sq_nonneg _)
    exact sq_eq_zero_iff.mp h4
  have hy : y0 + y1 + y2 = 0 := by
    have h4 : (y0 + y1 + y2) ^ 2 = 0 :=
      le_antisymm (by linarith [sq_nonneg (x0 + x1 + x2), sq_nonneg (z0 + z1 + z2)])
        (sq_nonneg _)
    exact sq_eq_zero_iff.mp h4
  have hz : z0 + z1 + z2 = 0 := by
    have h4 : (z0 + z1 + z2) ^ 2 = 0 :=
      le_antisymm (by linarith [sq_nonneg (x0 + x1 + x2), sq_nonneg (y0 + y1 + y2)])
        (sq_nonneg _)
    exact sq_eq_zero_iff.mp h4
  have hx2 : x2 = -x0 - x1 := by linarith
  have hy2 : y2 = -y0 - y1 := by linarith
  have hz2 : z2 = -z0 - z1 := by linarith
  subst hx2; subst hy2; subst hz2
  simp only [M3.det]
  ring

theorem scan_none_impossible (e : E4) (tol : ℚ) (l : List (V3 ℚ))
    (h0 : 0 ≤ tol) (hlt : tol < |det3 e|)
    (hperm : l.Perm (candidates7 e))
    (hscan : scan3 (detPred tol) l = none) : False := by
  have hsub : List.Sublist [e.b0, e.b1, e.b2] (candidates7 e) := by
    unfold candidates7
    exact List.sublist_append_left [e.b0, e.b1, e.b2]
      [e.b3, e.b0 + e.b1, e.b1 + e.b2, e.b2 + e.b0]
  have hsp : List.Subperm [e.b0, e.b1, e.b2] l :=
    hperm.subperm_left.mpr hsub.subperm
  obtain ⟨l3, hl3p, hl3s⟩ := hsp
  have habs : ∀ u v w : V3 ℚ, List.Sublist [u, v, w] l → |M3.det ⟨u, v, w⟩| ≤ tol := by
    intro u v w hs
    have hf := scan3_none (detPred tol) l hscan u v w hs
    simpa [detPred, not_lt] using hf
  have hd : tol < |M3.det (⟨e.b0, e.b1, e.b2⟩ : M3 ℚ)| := hlt
  rcases perm_three hl3p with h3 | h3 | h3 | h3 | h3 | h3 <;> subst h3
  · exact absurd (habs _ _ _ hl3s) (not_le.mpr hd)
  · have h4 := habs _ _ _ hl3s
    rw [(abs_det_perm e.b0 e.b1 e.b2).2.1] at h4
    exact absurd h4 (not_le.mpr hd)
  · have h4 := habs _ _ _ hl3s
    rw [(abs_det_perm e.b0 e.b1 e.b2).1] at h4
    exact absurd h4 (not_le.mpr hd)
  · have h4 := habs _ _ _ hl3s
    rw [(abs_det_perm e.b0 e.b1 e.b2).2.2.1] at h4
    exact absurd h4 (not_le.mpr hd)
  · have h4 := habs _ _ _ hl3s
    rw [(abs_det_perm e.b0 e.b1 e.b2).2.2.2.1] at h4
    exact absurd h4 (not_le.mpr hd)
  · have h4 := habs _ _ _ hl3s
    rw [(abs_det_perm e.b0 e.b1 e.b2).2.2.2.2] at h4
    exact absurd h4 (not_le.mpr hd)

theorem scan_det_of_sorted (e : E4) (tol : ℚ) (l : List (V3 ℚ)) (t : M3 ℚ)
    (hb3 : e.b3 = -(e.b0 + e.b1 + e.b2))
    (h0 : 0 ≤ tol) (hlt : tol < |det3 e|)
    (hperm : l.Perm (candidates7 e))
    (hsort : List.Sorted sqLeV l)
    (hscan : scan3 (detPred tol) l = some t) :
    |M3.det t| = |det3 e| := by
  have hd0 : det3 e ≠ 0 := by
    intro hz
    rw [hz, abs_zero] at hlt
    linarith
  have hdB : M3.det (⟨e.b0, e.b1, e.b2⟩ : M3 ℚ) ≠ 0 := hd0
  have hcmap := candidates7_eq_map e hb3
  have hcoeff : ∀ v ∈ l, ∃ cv ∈ coeffs7, v = M3.rowMul cv ⟨e.b0, e.b1, e.b2⟩ := by
    intro v hv
    have hv2 : v ∈ candidates7 e := hperm.subset hv
    rw [hcmap] at hv2
    obtain ⟨cv, hcv, heq⟩ := List.mem_map.mp hv2
    exact ⟨cv, hcv, heq.symm⟩
  have hnd : l.Nodup := hperm.nodup_iff.mpr (candidates7_nodup e hb3 hd0)
  obtain ⟨l₁, r₁, hdec1, hs2, hfail1⟩ := scan3_some (detPred tol) l t hscan
  obtain ⟨-, l₂, r₂, hdec2, hs1, hfail2⟩ := scan2_some (detPred tol) t.r0 r₁ t hs2
  obtain ⟨-, -, hpredt, l₃, l₄, hdec3, hfail3⟩ := scan1_some (detPred tol) t.r0 t.r1 r₂ t hs1
  subst hdec3
  subst hdec2
  have hm0 : t.r0 ∈ l := by rw [hdec1]; simp
  have hm1 : t.r1 ∈ l := by rw [hdec1]; simp
  have hm2 : t.r2 ∈ l := by rw [hdec1]; simp
  obtain ⟨c0, hc0in, hc0eq⟩ := hcoeff t.r0 hm0
  obtain ⟨c1, hc1in, hc1eq⟩ := hcoeff t.r1 hm1
  obtain ⟨c2, hc2in, hc2eq⟩ := hcoeff t.r2 hm2
  have htval : tol < |M3.det t| := by
    simpa [detPred, gt_iff_lt] using hpredt
  have hteq : M3.det t = M3.det ⟨c0, c1, c2⟩ * det3 e := by
    have heta : t = (⟨t.r0, t.r1, t.r2⟩ : M3 ℚ) := rfl
    rw [heta, hc0eq, hc1eq, hc2eq, det_rowMul3]
    rfl
  rcases coeff_det_classify c0 hc0in c1 hc1in c2 hc2in with hcase | hcase | hcase
  · exfalso
    rw [hteq, hcase, zero_mul, abs_zero] at htval
    linarith
  · rw [hteq, abs_mul, hcase, one_mul]
  · exfalso
    obtain ⟨-, hpmem⟩ := hcase
    obtain ⟨hcs0, hcs1, hcs2, hp01, hp12, hp20⟩ := sumPerm_facts (c0, c1, c2) hpmem
    have hcs0' : c0 ∈ sumCoeffs := hcs0
    have hcs1' : c1 ∈ sumCoeffs := hcs1
    have hcs2' : c2 ∈ sumCoeffs := hcs2
    have hp01' : (⟨1, 1, 0⟩ : V3 ℚ) = c0 ∨ (⟨1, 1, 0⟩ : V3 ℚ) = c1 ∨
        (⟨1, 1, 0⟩ : V3 ℚ) = c2 := hp01
    have hp12' : (⟨0, 1, 1⟩ : V3 ℚ) = c0 ∨ (⟨0, 1, 1⟩ : V3 ℚ) = c1 ∨
        (⟨0, 1, 1⟩ : V3 ℚ) = c2 := hp12
    have hp20' : (⟨1, 0, 1⟩ : V3 ℚ) = c0 ∨ (⟨1, 0, 1⟩ : V3 ℚ) = c1 ∨
        (⟨1, 0, 1⟩ : V3 ℚ) = c2 := hp20
    have hgt : ∀ ca cb cc : V3 ℚ, 1 ≤ |M3.det ⟨ca, cb, cc⟩| →
        detPred tol ⟨M3.rowMul ca ⟨e.b0, e.b1, e.b2⟩, M3.rowMul cb ⟨e.b0, e.b1, e.b2⟩,
          M3.rowMul cc ⟨e.b0, e.b1, e.b2⟩⟩ = false → False := by
      intro ca cb cc h1 hfalse
      have hle : |M3.det (⟨M3.rowMul ca ⟨e.b0, e.b1, e.b2⟩, M3.rowMul cb ⟨e.b0, e.b1, e.b2⟩,
          M3.rowMul cc ⟨e.b0, e.b1, e.b2⟩⟩ : M3 ℚ)| ≤ tol := by
        simpa [detPred, not_lt] using hfalse
      rw [det_rowMul3, abs_mul] at hle
      have h2 := mul_le_mul_of_nonneg_right h1
        (abs_nonneg (M3.det (⟨e.b0, e.b1, e.b2⟩ : M3 ℚ)))
      rw [one_mul] at h2
      have h3 : tol < |M3.det (⟨e.b0, e.b1, e.b2⟩ : M3 ℚ)| := hlt
      linarith
    have hndl := hnd
    rw [hdec1] at hndl
    rw [List.nodup_append] at hndl
    obtain ⟨-, hnd2, hdisj1⟩ := hndl
    rw [List.nodup_cons] at hnd2
    obtain ⟨ht0ni, hnd3⟩ := hnd2
    rw [List.nodup_append] at hnd3
    obtain ⟨-, hnd4, hdisj2⟩ := hnd3
    rw [List.nodup_cons] at hnd4
    obtain ⟨ht1ni, hnd5⟩ := hnd4
    have hl1 : l₁ = [] := by
      rcases l₁ with - | ⟨u, lrest⟩
      · rfl
      exfalso
      have hu : u ∈ u :: lrest := List.mem_cons_self u lrest
      have hul : u ∈ l := by rw [hdec1]; simp
      obtain ⟨cu, hcuin, hcueq⟩ := hcoeff u hul
      have hune1 : u ≠ t.r1 := by
        intro hx
        exact hdisj1 hu (by rw [hx]; simp)
      have hune2 : u ≠ t.r2 := by
        intro hx
        exact hdisj1 hu (by rw [hx]; simp)
      have hcne1 : cu ≠ c1 := fun hx => hune1 (by rw [hcueq, hx, ← hc1eq])
      have hcne2 : cu ≠ c2 := fun hx => hune2 (by rw [hcueq, hx, ← hc2eq])
      have hsubvw : List.Sublist [t.r1, t.r2]
          (t.r0 :: (l₂ ++ t.r1 :: (l₃ ++ t.r2 :: l₄))) := by
        apply List.Sublist.cons
        apply List.Sublist.trans ?_ (List.sublist_append_right l₂ _)
        apply List.Sublist.cons₂
        apply List.Sublist.trans ?_ (List.sublist_append_right l₃ _)
        apply List.Sublist.cons₂
        exact List.nil_sublist _
      have hf := hfail1 u hu t.r1 t.r2 hsubvw
      rw [hcueq, hc1eq, hc2eq] at hf
      exact hgt cu c1 c2
        ((sumPerm_pair_det (c0, c1, c2) hpmem cu hcuin).1 hcne1 hcne2) hf
    subst hl1
    have hl2 : l₂ = [] := by
      rcases l₂ with - | ⟨u, lrest⟩
      · rfl
      exfalso
      have hu : u ∈ u :: lrest := List.mem_cons_self u lrest
      have hul : u ∈ l := by rw [hdec1]; simp
      obtain ⟨cu, hcuin, hcueq⟩ := hcoeff u hul
      have hune0 : u ≠ t.r0 := by
        intro hx
        apply ht0ni
        rw [← hx]
        exact List.mem_append_left _ hu
      have hune2 : u ≠ t.r2 := by
        intro hx
        exact hdisj2 hu (by rw [hx]; simp)
      have hcne0 : cu ≠ c0 := fun hx => hune0 (by rw [hcueq, hx, ← hc0eq])
      have hcne2 : cu ≠ c2 := fun hx => hune2 (by rw [hcueq, hx, ← hc2eq])
      have hw : t.r2 ∈ t.r1 :: (l₃ ++ t.r2 :: l₄) := by simp
      have hf := hfail2 u hu t.r2 hw
      rw [hcueq, hc0eq, hc2eq] at hf
      exact hgt c0 cu c2
        ((sumPerm_pair_det (c0, c1, c2) hpmem cu hcuin).2.1 hcne0 hcne2) hf
    subst hl2
    have hl3 : l₃ = [] := by
      rcases l₃ with - | ⟨u, lrest⟩
      · rfl
      exfalso
      have hu : u ∈ u :: lrest := List.mem_cons_self u lrest
      have hul : u ∈ l := by rw [hdec1]; simp
      obtain ⟨cu, hcuin, hcueq⟩ := hcoeff u hul
      have hune0 : u ≠ t.r0 := by
        intro hx
        apply ht0ni
        rw [← hx]
        simp
      have hune1 : u ≠ t.r1 := by
        intro hx
        apply ht1ni
        rw [← hx]
        exact List.mem_append_left _ hu
      have hcne0 : cu ≠ c0 := fun hx => hune0 (by rw [hcueq, hx, ← hc0eq])
      have hcne1 : cu ≠ c1 := fun hx => hune1 (by rw [hcueq, hx, ← hc1eq])
      have hf := hfail3 u hu
      rw [hcueq, hc0eq, hc1eq] at hf
      exact hgt c0 c1 cu
        ((sumPerm_pair_det (c0, c1, c2) hpmem cu hcuin).2.2 hcne0 hcne1) hf
    subst hl3
    have hlfin : l = t.r0 :: t.r1 :: t.r2 :: l₄ := by
      rw [hdec1]
      rfl
    have hsort2 := hsort
    rw [hlfin] at hsort2
    simp only [List.sorted_cons] at hsort2
    obtain ⟨hst0, hst1, hst2, -⟩ := hsort2
    have hbmem : ∀ cb : V3 ℚ, cb ∈ coeffs7 → cb ∉ sumCoeffs →
        M3.rowMul cb ⟨e.b0, e.b1, e.b2⟩ ∈ l₄ := by
      intro cb hcb hcbns
      have h1 : M3.rowMul cb ⟨e.b0, e.b1, e.b2⟩ ∈ l := by
        rw [hperm.mem_iff, hcmap]
        exact List.mem_map_of_mem _ hcb
      rw [hlfin] at h1
      rcases List.mem_cons.mp h1 with hx | h1
      · exfalso
        rw [hc0eq] at hx
        exact hcbns (by rw [rowMul_inj _ hdB hx]; exact hcs0')
      rcases List.mem_cons.mp h1 with hx | h1
      · exfalso
        rw [hc1eq] at hx
        exact hcbns (by rw [rowMul_inj _ hdB hx]; exact hcs1')
      rcases List.mem_cons.mp h1 with hx | h1
      · exfalso
        rw [hc2eq] at hx
        exact hcbns (by rw [rowMul_inj _ hdB hx]; exact hcs2')
      exact h1
    have hb0mem : e.b0 ∈ l₄ := by
      have h1 := hbmem ⟨1, 0, 0⟩ (of_decide_eq_true (by with_unfolding_all rfl))
        (fun hx => (sumCoeffs_ne_basis _ hx).1 rfl)
      rw [rowMul_cb0] at h1
      exact h1
    have hb1mem : e.b1 ∈ l₄ := by
      have h1 := hbmem ⟨0, 1, 0⟩ (of_decide_eq_true (by with_unfolding_all rfl))
        (fun hx => (sumCoeffs_ne_basis _ hx).2.1 rfl)
      rw [rowMul_cb1] at h1
      exact h1
    have hb2mem : e.b2 ∈ l₄ := by
      have h1 := hbmem ⟨0, 0, 1⟩ (of_decide_eq_true (by with_unfolding_all rfl))
        (fun hx => (sumCoeffs_ne_basis _ hx).2.2 rfl)
      rw [rowMul_cb2] at h1
      exact h1
    have hsum01 : V3.sqNorm (e.b0 + e.b1) ≤ V3.sqNorm e.b2 := by
      rcases hp01' with hx | hx | hx
      · have ht : t.r0 = e.b0 + e.b1 := by rw [hc0eq, ← hx, rowMul_cs01]
        have h1 := hst0 e.b2 (by simp [hb2mem])
        rw [ht] at h1
        exact h1
      · have ht : t.r1 = e.b0 + e.b1 := by rw [hc1eq, ← hx, rowMul_cs01]
        have h1 := hst1 e.b2 (by simp [hb2mem])
        rw [ht] at h1
        exact h1
      · have ht : t.r2 = e.b0 + e.b1 := by rw [hc2eq, ← hx, rowMul_cs01]
        have h1 := hst2 e.b2 hb2mem
        rw [ht] at h1
        exact h1
    have hsum12 : V3.sqNorm (e.b1 + e.b2) ≤ V3.sqNorm e.b0 := by
      rcases hp12' with hx | hx | hx
      · have ht : t.r0 = e.b1 + e.b2 := by rw [hc0eq, ← hx, rowMul_cs12]
        have h1 := hst0 e.b0 (by simp [hb0mem])
        rw [ht] at h1
        exact h1
      · have ht : t.r1 = e.b1 + e.b2 := by rw [hc1eq, ← hx, rowMul_cs12]
        have h1 := hst1 e.b0 (by simp [hb0mem])
        rw [ht] at h1
        exact h1
      · have ht : t.r2 = e.b1 + e.b2 := by rw [hc2eq, ← hx, rowMul_cs12]
        have h1 := hst2 e.b0 hb0mem
        rw [ht] at h1
        exact h1
    have hsum20 : V3.sqNorm (e.b2 + e.b0) ≤ V3.sqNorm e.b1 := by
      rcases hp20' with hx | hx | hx
      · have ht : t.r0 = e.b2 + e.b0 := by rw [hc0eq, ← hx, rowMul_cs20]
        have h1 := hst0 e.b1 (by simp [hb1mem])
        rw [ht] at h1
        exact h1
      · have ht : t.r1 = e.b2 + e.b0 := by rw [hc1eq, ← hx, rowMul_cs20]
        have h1 := hst1 e.b1 (by simp [hb1mem])
        rw [ht] at h1
        exact h1
      · have ht : t.r2 = e.b2 + e.b0 := by rw [hc2eq, ← hx, rowMul_cs20]
        have h1 := hst2 e.b1 hb1mem
        rw [ht] at h1
        exact h1
    exact hd0 (det_zero_of_sum_short e.b0 e.b1 e.b2 hsum01 hsum12 hsum20)

theorem getShortestBases_det (e : E4) (tol : ℚ)
    (hb3 : e.b3 = -(e.b0 + e.b1 + e.b2))
    (h0 : 0 ≤ tol) (hlt : tol < |det3 e|) :
    |M3.det (getShortestBases e tol).1| = |det3 e| := by
  unfold getShortestBases
  cases hscan : scan3 (detPred tol) (List.insertionSort sqLeV (candidates7 e)) with
  | some t =>
    exact scan_det_of_sorted e tol _ t hb3 h0 hlt
      (List.perm_insertionSort sqLeV (candidates7 e))
      (List.sorted_insertionSort sqLeV (candidates7 e)) hscan
  | none =>
    exact (scan_none_impossible e tol _ h0 hlt
      (List.perm_insertionSort sqLeV (candidates7 e)) hscan).elim

/-- C3 (amended): for any lattice and tolerance with
`0 ≤ tolerance < |det(lattice)|`, the basis returned by
`get_Delaunay_reduction` spans the same lattice volume: the magnitude of its
determinant equals that of the input lattice.  (The originally claimed
pairwise-dot bound on the returned triple is refuted by
`delaunay_dot_counterexample`.) -/
theorem delaunay_det_preserved (L : M3 ℚ) (tol : ℚ)
    (h0 : 0 ≤ tol) (hlt : tol < |M3.det L|) :
    |M3.det (getDelaunayReduction L tol).basis| = |M3.det L| := by
  have hb : (getDelaunayReduction L tol).basis =
      (getShortestBases (sellingLoop tol 100
        ⟨L.r0, L.r1, L.r2, -(L.r0 + L.r1 + L.r2)⟩).1 tol).1 := rfl
  obtain ⟨h1, h2⟩ := sellingLoop_invariant tol 100
    ⟨L.r0, L.r1, L.r2, -(L.r0 + L.r1 + L.r2)⟩ rfl
  have hd3 : det3 (⟨L.r0, L.r1, L.r2, -(L.r0 + L.r1 + L.r2)⟩ : E4) = M3.det L := rfl
  have hlt2 : tol < |det3 (sellingLoop tol 100
      ⟨L.r0, L.r1, L.r2, -(L.r0 + L.r1 + L.r2)⟩).1| := by
    rw [h2, hd3]
    exact hlt
  rw [hb, getShortestBases_det _ tol h1 h0 hlt2, h2, hd3]

/-- Witness for `delaunay_det_preserved` at the concrete lattice
`[[1,0,0],[-9/10,7/10,0],[0,0,1]]` and tolerance `1e-5`. -/
theorem delaunay_det_preserved_witness :
    0 ≤ (1/100000 : ℚ) ∧ (1/100000 : ℚ) < |M3.det acuteLat| ∧
      |M3.det (getDelaunayReduction acuteLat (1/100000)).basis| = |M3.det acuteLat| :=
  ⟨of_decide_eq_true (by with_unfolding_all rfl),
   of_decide_eq_true (by with_unfolding_all rfl),
   delaunay_det_preserved acuteLat (1/100000)
     (of_decide_eq_true (by with_unfolding_all rfl))
     (of_decide_eq_true (by with_unfolding_all rfl))⟩

theorem sqNorm_nonneg (v : V3 ℚ) : 0 ≤ V3.sqNorm v := by
  rcases v with ⟨x, y, z⟩
  simp only [V3.sqNorm, V3.dot]
  nlinarith [mul_self_nonneg x, mul_self_nonneg y, mul_self_nonneg z]

theorem qmin_le : ∀ (lst : List ℚ), ∀ x ∈ lst, qmin lst ≤ x := by
  intro lst
  induction lst with
  | nil => intro x hx; simp at hx
  | cons a rest ih =>
    intro x hx
    rcases List.mem_cons.mp hx with hx | hx
    · subst hx
      cases rest with
      | nil => exact le_refl _
      | cons b tl => exact min_le_left _ _
    · cases rest with
      | nil => simp at hx
      | cons b tl => exact le_trans (min_le_right _ _) (ih x hx)

theorem qmin_mem : ∀ (lst : List ℚ), lst ≠ [] → qmin lst ∈ lst := by
  intro lst
  induction lst with
  | nil => intro h; exact absurd rfl h
  | cons a rest ih =>
    intro _
    cases rest with
    | nil => simp [qmin]
    | cons b tl =>
      rcases le_total a (qmin (b :: tl)) with h | h
      · have h2 : qmin (a :: b :: tl) = a := by
          show min a (qmin (b :: tl)) = a
          exact min_eq_left h
        rw [h2]
        simp
      · have h2 : qmin (a :: b :: tl) = qmin (b :: tl) := by
          show min a (qmin (b :: tl)) = qmin (b :: tl)
          exact min_eq_right h
        rw [h2]
        exact List.mem_cons_of_mem _ (ih (by simp))

theorem sqrtDiffLt_iff (a m t : ℚ) (hm : 0 ≤ m) (hma : m ≤ a) :
    sqrtDiffLt a m t = true ↔
      Real.sqrt (a : ℝ) - Real.sqrt (m : ℝ) < (t : ℝ) := by
  have ha : (0:ℝ) ≤ (a : ℝ) := by exact_mod_cast hm.trans hma
  have hmr : (0:ℝ) ≤ (m : ℝ) := by exact_mod_cast hm
  have hsm := Real.sq_sqrt hmr
  have hsa := Real.sq_sqrt ha
  have hM0 := Real.sqrt_nonneg (m : ℝ)
  have hA0 := Real.sqrt_nonneg (a : ℝ)
  have hmono : Real.sqrt (m:ℝ) ≤ Real.sqrt (a:ℝ) :=
    Real.sqrt_le_sqrt (by exact_mod_cast hma)
  unfold sqrtDiffLt
  split_ifs with h1 h2
  · simp only [Bool.false_eq_true, false_iff, not_lt]
    have ht : (t:ℝ) ≤ 0 := by exact_mod_cast h1
    linarith
  · constructor
    · intro _
      have ht : (0:ℝ) < (t:ℝ) := by exact_mod_cast not_le.mp h1
      have h2r : (a:ℝ) - m - t^2 < 0 := by exact_mod_cast h2
      nlinarith [hsm, hsa, hM0, hA0, hmono]
    · intro _
      rfl
  · rw [decide_eq_true_eq]
    have ht : (0:ℝ) < (t:ℝ) := by exact_mod_cast not_le.mp h1
    have h2r : (0:ℝ) ≤ (a:ℝ) - m - t^2 := by
      have := not_lt.mp h2
      exact_mod_cast this
    constructor
    · intro h3
      have h3r : ((a:ℝ) - m - t^2)^2 < 4*t^2*m := by exact_mod_cast h3
      have h2t : (0:ℝ) ≤ 2 * (t:ℝ) * Real.sqrt (m:ℝ) :=
        mul_nonneg (mul_nonneg (by norm_num) ht.le) hM0
      have hlt1 : (a:ℝ) - m - t^2 < 2 * t * Real.sqrt (m:ℝ) := by
        nlinarith [hsm, hM0, ht, h3r, h2r, h2t]
      nlinarith [hsm, hsa, hM0, ht, hlt1]
    · intro h3
      have key : ((a:ℝ) - m - t^2)^2 < 4*t^2*m := by
        have hlt1 : (a:ℝ) < (Real.sqrt (m:ℝ) + t)^2 := by
          nlinarith [hsa, hA0, hM0, h3]
        have hx : (a:ℝ) - m - t^2 < 2*t*Real.sqrt (m:ℝ) := by
          nlinarith [hsm, hlt1]
        nlinarith [hx, h2r, hsm, hM0, ht]
      exact_mod_cast key

theorem candidateSqs_ne_nil (v : V3 ℚ) (B : M3 ℚ) : candidateSqs v B ≠ [] := by
  have h : (candidateSqs v B).length = 27 := rfl
  intro hx
  rw [hx] at h
  simp at h

theorem qmin_candidateSqs_nonneg (v : V3 ℚ) (B : M3 ℚ) :
    0 ≤ qmin (candidateSqs v B) := by
  have h := qmin_mem _ (candidateSqs_ne_nil v B)
  obtain ⟨c, hc, heq⟩ := List.mem_map.mp h
  rw [← heq]
  exact sqNorm_nonneg _

/-- C4: for a positive tolerance, `_get_equivalent_smallest_vectors_simple`
returns at least one vector, the square root of the minimum squared length is
a true minimum of the Cartesian lengths over the 27 candidates (attained and
a lower bound), and a candidate is returned exactly when its Cartesian length
is within the tolerance of that minimum — all ties kept. -/
theorem smallest_vectors_tie_filter (v : V3 ℚ) (B : M3 ℚ) (tol : ℚ) (h0 : 0 < tol) :
    getEquivalentSmallestVectorsSimple v B tol ≠ [] ∧
    (∀ c ∈ candidateList v,
      Real.sqrt (qmin (candidateSqs v B) : ℝ) ≤
        Real.sqrt ((V3.sqNorm (M3.rowMul c B) : ℚ) : ℝ)) ∧
    (∃ c ∈ candidateList v,
      Real.sqrt (qmin (candidateSqs v B) : ℝ) =
        Real.sqrt ((V3.sqNorm (M3.rowMul c B) : ℚ) : ℝ)) ∧
    (∀ c : V3 ℚ, c ∈ getEquivalentSmallestVectorsSimple v B tol ↔
      c ∈ candidateList v ∧
        Real.sqrt ((V3.sqNorm (M3.rowMul c B) : ℚ) : ℝ) -
          Real.sqrt (qmin (candidateSqs v B) : ℝ) < (tol : ℝ)) := by
  have hmemiff : ∀ c : V3 ℚ, c ∈ getEquivalentSmallestVectorsSimple v B tol ↔
      c ∈ candidateList v ∧ sqrtDiffLt (V3.sqNorm (M3.rowMul c B))
        (qmin (candidateSqs v B)) tol = true := by
    intro c
    unfold getEquivalentSmallestVectorsSimple
    exact List.mem_filter
  have hq0 := qmin_candidateSqs_nonneg v B
  have hqle : ∀ c ∈ candidateList v,
      qmin (candidateSqs v B) ≤ V3.sqNorm (M3.rowMul c B) := by
    intro c hc
    exact qmin_le _ _ (List.mem_map_of_mem _ hc)
  obtain ⟨cmin, hcmin, hceq⟩ := List.mem_map.mp (qmin_mem _ (candidateSqs_ne_nil v B))
  have hceq2 : V3.sqNorm (M3.rowMul cmin B) = qmin (candidateSqs v B) := hceq
  refine ⟨?_, ?_, ?_, ?_⟩
  · have hmem : cmin ∈ getEquivalentSmallestVectorsSimple v B tol := by
      rw [hmemiff]
      refine ⟨hcmin, ?_⟩
      rw [sqrtDiffLt_iff _ _ _ hq0 (hqle cmin hcmin), hceq2]
      simp only [sub_self]
      exact_mod_cast h0
    exact List.ne_nil_of_mem hmem
  · intro c hc
    exact Real.sqrt_le_sqrt (by exact_mod_cast hqle c hc)
  · exact ⟨cmin, hcmin, by rw [← hceq2]⟩
  · intro c
    rw [hmemiff]
    constructor
    · rintro ⟨hc, hf⟩
      exact ⟨hc, (sqrtDiffLt_iff _ _ _ hq0 (hqle c hc)).mp hf⟩
    · rintro ⟨hc, hf⟩
      exact ⟨hc, (sqrtDiffLt_iff _ _ _ hq0 (hqle c hc)).mpr hf⟩

/-- Witness for `smallest_vectors_tie_filter` at the zero fractional vector,
identity reduced bases, tolerance `1/10`. -/
theorem smallest_vectors_tie_filter_witness :
    0 < (1/10 : ℚ) ∧
    (getEquivalentSmallestVectorsSimple ⟨0, 0, 0⟩ (M3.idM : M3 ℚ) (1/10) ≠ [] ∧
    (∀ c ∈ candidateList ⟨0, 0, 0⟩,
      Real.sqrt (qmin (candidateSqs ⟨0, 0, 0⟩ (M3.idM : M3 ℚ)) : ℝ) ≤
        Real.sqrt ((V3.sqNorm (M3.rowMul c (M3.idM : M3 ℚ)) : ℚ) : ℝ)) ∧
    (∃ c ∈ candidateList ⟨0, 0, 0⟩,
      Real.sqrt (qmin (candidateSqs ⟨0, 0, 0⟩ (M3.idM : M3 ℚ)) : ℝ) =
        Real.sqrt ((V3.sqNorm (M3.rowMul c (M3.idM : M3 ℚ)) : ℚ) : ℝ)) ∧
    (∀ c : V3 ℚ, c ∈ getEquivalentSmallestVectorsSimple ⟨0, 0, 0⟩ (M3.idM : M3 ℚ) (1/10) ↔
      c ∈ candidateList ⟨0, 0, 0⟩ ∧
        Real.sqrt ((V3.sqNorm (M3.rowMul c (M3.idM : M3 ℚ)) : ℚ) : ℝ) -
          Real.sqrt (qmin (candidateSqs ⟨0, 0, 0⟩ (M3.idM : M3 ℚ)) : ℝ) < ((1/10 : ℚ) : ℝ))) :=
  ⟨by norm_num, smallest_vectors_tie_filter ⟨0, 0, 0⟩ (M3.idM : M3 ℚ) (1/10) (by norm_num)⟩

/-- C8 evidence: `_supercell_to_primitive_map` does not fail on an unmatched
supercell atom.  With two atoms at `(0,0,0)` and `(1/2,1/2,1/2)`, primitive
representatives `[0]`, the identity primitive matrix and tolerance `1/10`,
the second atom matches no representative, yet the map is built normally and
is simply one entry short (`[0]` for 2 atoms) — no error is raised, the claim
that the failure propagates to the caller does not hold. -/
theorem primitive_map_silent_skip :
    M3.det (M3.idM : M3 ℚ) ≠ 0 ∧
    supercellToPrimitiveMap exPosC8 [0] M3.idM (1/10) = some [0] ∧
    exPosC8.length = 2 :=
  ⟨of_decide_eq_true (by with_unfolding_all rfl),
   of_decide_eq_true (by with_unfolding_all rfl),
   rfl⟩

theorem M3.mul_assoc' (a b c : M3 ℚ) : M3.mul (M3.mul a b) c = M3.mul a (M3.mul b c) := by
  rcases a with ⟨⟨a1, a2, a3⟩, ⟨a4, a5, a6⟩, ⟨a7, a8, a9⟩⟩
  rcases b with ⟨⟨b1, b2, b3⟩, ⟨b4, b5, b6⟩, ⟨b7, b8, b9⟩⟩
  rcases c with ⟨⟨c1, c2, c3⟩, ⟨c4, c5, c6⟩, ⟨c7, c8, c9⟩⟩
  simp only [M3.mul, M3.rowMul, M3.ext_iff, V3.ext_iff']
  refine ⟨⟨by ring, by ring, by ring⟩, ⟨by ring, by ring, by ring⟩, by ring, by ring, by ring⟩

theorem M3.mul_idM_right (a : M3 ℚ) : M3.mul a M3.idM = a := by
  rcases a with ⟨r0, r1, r2⟩
  simp only [M3.mul, M3.ext_iff]
  exact ⟨M3.rowMul_idM r0, M3.rowMul_idM r1, M3.rowMul_idM r2⟩

theorem M3.transpose_mul' (a b : M3 ℚ) :
    M3.transpose (M3.mul a b) = M3.mul (M3.transpose b) (M3.transpose a) := by
  rcases a with ⟨⟨a1, a2, a3⟩, ⟨a4, a5, a6⟩, ⟨a7, a8, a9⟩⟩
  rcases b with ⟨⟨b1, b2, b3⟩, ⟨b4, b5, b6⟩, ⟨b7, b8, b9⟩⟩
  simp only [M3.mul, M3.rowMul, M3.transpose, M3.ext_iff, V3.ext_iff']
  refine ⟨⟨by ring, by ring, by ring⟩, ⟨by ring, by ring, by ring⟩, by ring, by ring, by ring⟩

theorem M3.transpose_idM : M3.transpose (M3.idM : M3 ℚ) = M3.idM := rfl

theorem rowMul_add (a b : V3 ℚ) (x : M3 ℚ) :
    M3.rowMul (a + b) x = M3.rowMul a x + M3.rowMul b x := by
  rcases a with ⟨a1, a2, a3⟩
  rcases b with ⟨b1, b2, b3⟩
  rcases x with ⟨⟨p1, p2, p3⟩, ⟨q1, q2, q3⟩, ⟨r1, r2, r3⟩⟩
  simp only [M3.rowMul, V3.ext_iff', V3.add_x, V3.add_y, V3.add_z]
  refine ⟨by ring, by ring, by ring⟩

theorem V3.toQ_sub (a b : V3 ℤ) : V3.toQ (a - b) = V3.toQ a - V3.toQ b := by
  rcases a with ⟨a1, a2, a3⟩
  rcases b with ⟨b1, b2, b3⟩
  simp only [V3.toQ, V3.ext_iff', V3.sub_x, V3.sub_y, V3.sub_z]
  refine ⟨by push_cast; ring, by push_cast; ring, by push_cast; ring⟩

theorem V3.toQ_rowMul (v : V3 ℤ) (n : M3 ℤ) :
    V3.toQ (M3.rowMul v n) = M3.rowMul (V3.toQ v) (M3.toQ n) := by
  rcases v with ⟨a1, a2, a3⟩
  rcases n with ⟨⟨p1, p2, p3⟩, ⟨q1, q2, q3⟩, ⟨r1, r2, r3⟩⟩
  simp only [M3.rowMul, V3.toQ, M3.toQ, V3.ext_iff']
  refine ⟨by push_cast; ring, by push_cast; ring, by push_cast; ring⟩

theorem M3.toQ_transpose (n : M3 ℤ) :
    M3.toQ (M3.transpose n) = M3.transpose (M3.toQ n) := rfl

theorem M3.det_toQ (n : M3 ℤ) : M3.det (M3.toQ n) = ((M3.det n : ℤ) : ℚ) := by
  rcases n with ⟨⟨p1, p2, p3⟩, ⟨q1, q2, q3⟩, ⟨r1, r2, r3⟩⟩
  simp only [M3.det, M3.toQ, V3.toQ]
  push_cast
  ring

theorem M3.inv_unique (a b : M3 ℚ) (ha : M3.det a ≠ 0) (h : M3.mul a b = M3.idM) :
    b = M3.inv a := by
  have h1 : M3.mul (M3.inv a) (M3.mul a b) = M3.mul (M3.inv a) M3.idM := by rw [h]
  rw [← M3.mul_assoc', M3.inv_mul a ha, M3.mul_idM_left, M3.mul_idM_right] at h1
  exact h1

theorem M3.transpose_diagQ (v : V3 ℤ) : M3.transpose (M3.diagQ v) = M3.diagQ v := rfl

theorem fracV_add_intV (x : V3 ℚ) (n : V3 ℤ) : fracV (x + V3.toQ n) = fracV x := by
  rcases x with ⟨a1, a2, a3⟩
  rcases n with ⟨b1, b2, b3⟩
  simp only [fracV, V3.toQ, V3.ext_iff', V3.add_x, V3.add_y, V3.add_z]
  exact ⟨fracPart_add_int a1 b1, fracPart_add_int a2 b2, fracPart_add_int a3 b3⟩

theorem trimFrame_eq_mul (m : M3 ℤ) :
    trimFrameOf m = M3.mul
      ⟨⟨1 / ((surFrame m).x : ℚ), 0, 0⟩, ⟨0, 1 / ((surFrame m).y : ℚ), 0⟩,
       ⟨0, 0, 1 / ((surFrame m).z : ℚ)⟩⟩ (M3.toQ m) := by
  simp only [trimFrameOf, M3.mul, M3.rowMul, M3.toQ, V3.toQ, M3.ext_iff, V3.ext_iff']
  refine ⟨⟨by ring, by ring, by ring⟩, ⟨by ring, by ring, by ring⟩, by ring, by ring, by ring⟩

theorem trimFrame_mul (m : M3 ℤ)
    (hdet : M3.det (M3.toQ m) ≠ 0)
    (hfx : ((surFrame m).x : ℚ) ≠ 0) (hfy : ((surFrame m).y : ℚ) ≠ 0)
    (hfz : ((surFrame m).z : ℚ) ≠ 0) :
    M3.mul (trimFrameOf m)
      (M3.mul (M3.inv (M3.toQ m)) (M3.diagQ (surFrame m))) = M3.idM := by
  rw [trimFrame_eq_mul, M3.mul_assoc', ← M3.mul_assoc' (M3.toQ m), M3.mul_inv _ hdet,
    M3.mul_idM_left]
  simp only [M3.mul, M3.rowMul, M3.diagQ, M3.idM, M3.ext_iff, V3.ext_iff']
  norm_num
  refine ⟨by field_simp, by field_simp, by field_simp⟩

theorem det_trimFrame_ne_zero (m : M3 ℤ)
    (hdet : M3.det (M3.toQ m) ≠ 0)
    (hfx : ((surFrame m).x : ℚ) ≠ 0) (hfy : ((surFrame m).y : ℚ) ≠ 0)
    (hfz : ((surFrame m).z : ℚ) ≠ 0) :
    M3.det (trimFrameOf m) ≠ 0 := by
  intro hc
  have h1 := trimFrame_mul m hdet hfx hfy hfz
  have h2 := congrArg M3.det h1
  have h3 : M3.det (M3.mul (trimFrameOf m)
      (M3.mul (M3.inv (M3.toQ m)) (M3.diagQ (surFrame m)))) =
      M3.det (trimFrameOf m) * M3.det (M3.mul (M3.inv (M3.toQ m)) (M3.diagQ (surFrame m))) := by
    rcases h4 : M3.mul (M3.inv (M3.toQ m)) (M3.diagQ (surFrame m)) with ⟨s0, s1, s2⟩
    show M3.det ⟨M3.rowMul (trimFrameOf m).r0 _, M3.rowMul (trimFrameOf m).r1 _,
      M3.rowMul (trimFrameOf m).r2 _⟩ = _
    rw [det_rowMul3]
  rw [h3, hc, zero_mul] at h2
  have h5 : M3.det (M3.idM : M3 ℚ) = 1 := by
    simp only [M3.det, M3.idM]
    norm_num
  rw [h5] at h2
  exact one_ne_zero h2.symm

theorem inv_trimFrame (m : M3 ℤ)
    (hdet : M3.det (M3.toQ m) ≠ 0)
    (hfx : ((surFrame m).x : ℚ) ≠ 0) (hfy : ((surFrame m).y : ℚ) ≠ 0)
    (hfz : ((surFrame m).z : ℚ) ≠ 0) :
    M3.inv (trimFrameOf m) = M3.mul (M3.inv (M3.toQ m)) (M3.diagQ (surFrame m)) :=
  (M3.inv_unique _ _ (det_trimFrame_ne_zero m hdet hfx hfy hfz)
    (trimFrame_mul m hdet hfx hfy hfz)).symm


theorem vecMul_injective_of_det_ne_zero (A : Matrix (Fin 3) (Fin 3) ℤ) (hA : A.det ≠ 0) :
    Function.Injective A.vecMulLinear := by
  intro v w h
  simp only [Matrix.vecMulLinear_apply] at h
  have h2 : Matrix.vecMul (v - w) A = 0 := by
    rw [Matrix.sub_vecMul, h, sub_self]
  have h3 : Matrix.vecMul (v - w) (A * A.adjugate) = 0 := by
    rw [← Matrix.vecMul_vecMul, h2, Matrix.zero_vecMul]
  rw [Matrix.mul_adjugate] at h3
  have h4 : v - w = 0 := by
    funext i
    have h5 := congrFun h3 i
    simp only [Matrix.vecMul, Matrix.dotProduct, Matrix.smul_apply, Matrix.one_apply,
      smul_eq_mul, mul_ite, mul_one, mul_zero, Finset.sum_ite_eq, Finset.sum_ite_eq', Finset.mem_univ,
      if_true, Pi.zero_apply] at h5
    rcases mul_eq_zero.mp h5 with h6 | h6
    · first
      | exact h6
      | exact absurd h6 hA
    · first
      | exact h6
      | exact absurd h6 hA
  have h7 := sub_eq_zero.mp h4
  exact h7

theorem range_vecMulLinear_index (A : Matrix (Fin 3) (Fin 3) ℤ) (hA : A.det ≠ 0) :
    (LinearMap.range A.vecMulLinear).toAddSubgroup.index = A.det.natAbs := by
  classical
  have hinj := vecMul_injective_of_det_ne_zero A hA
  set N := LinearMap.range A.vecMulLinear with hNdef
  let e : (Fin 3 → ℤ) ≃ₗ[ℤ] N := LinearEquiv.ofInjective A.vecMulLinear hinj
  have hne : N.toAddSubgroup.index ≠ 0 :=
    Int.submodule_toAddSubgroup_index_ne_zero_iff.mpr ⟨e.symm⟩
  obtain ⟨n, snf⟩ := N.smithNormalForm (Pi.basisFun ℤ (Fin 3))
  have hn3 : n = 3 := by
    have h1 := snf.toAddSubgroup_index_ne_zero_iff.mp hne
    simpa using h1
  subst hn3
  -- the embedding is bijective
  have hbij : Function.Bijective snf.f := by
    rw [← Finite.injective_iff_bijective]
    exact snf.f.injective
  let fe : Fin 3 ≃ Fin 3 := Equiv.ofBijective snf.f hbij
  let e2 : (Fin 3 → ℤ) ≃ₗ[ℤ] N := snf.bM.equiv snf.bN fe.symm
  -- determinant of subtype ∘ e2 is the product of the diagonal entries
  have hdiag : ∀ i, (N.subtype.comp (e2 : (Fin 3 → ℤ) →ₗ[ℤ] N)) (snf.bM i) =
      snf.a (fe.symm i) • snf.bM i := by
    intro i
    simp only [LinearMap.comp_apply, Submodule.coe_subtype, LinearEquiv.coe_coe]
    have h1 : e2 (snf.bM i) = snf.bN (fe.symm i) := snf.bM.equiv_apply _ _ _
    rw [h1, snf.snf (fe.symm i)]
    have hfi : snf.f (fe.symm i) = i := fe.apply_symm_apply i
    rw [hfi]
  have hdet2 : LinearMap.det (N.subtype.comp (e2 : (Fin 3 → ℤ) →ₗ[ℤ] N)) =
      ∏ i : Fin 3, snf.a (fe.symm i) := by
    rw [← LinearMap.det_toMatrix snf.bM]
    have hM : LinearMap.toMatrix snf.bM snf.bM (N.subtype.comp (e2 : (Fin 3 → ℤ) →ₗ[ℤ] N)) =
        Matrix.diagonal (fun i => snf.a (fe.symm i)) := by
      ext i j
      rw [LinearMap.toMatrix_apply, hdiag, LinearEquiv.map_smul, Basis.repr_self,
        Finsupp.smul_single, smul_eq_mul, mul_one]
      by_cases h : i = j
      · rw [h, Matrix.diagonal_apply_eq, Finsupp.single_eq_same]
      · rw [Matrix.diagonal_apply_ne _ h, Finsupp.single_eq_of_ne (Ne.symm h)]
    rw [hM, Matrix.det_diagonal]
  have hsub_e : N.subtype.comp (e : (Fin 3 → ℤ) →ₗ[ℤ] N) = A.vecMulLinear := by
    ext x
    rfl
  have hdet1 : LinearMap.det (N.subtype.comp (e : (Fin 3 → ℤ) →ₗ[ℤ] N)) = A.det := by
    rw [hsub_e]
    have hT : A.vecMulLinear = Matrix.toLin' A.transpose := by
      ext v i
      simp [Matrix.vecMul, Matrix.mulVec, Matrix.toLin'_apply, Matrix.dotProduct, mul_comm]
    rw [hT, LinearMap.det_toLin', Matrix.det_transpose]
  have hassoc := LinearMap.associated_det_comp_equiv (N.subtype) e e2
  rw [hdet1, hdet2] at hassoc
  have hnat : A.det.natAbs = (∏ i : Fin 3, snf.a (fe.symm i)).natAbs :=
    Int.associated_iff_natAbs.mp hassoc
  have hprod : (∏ i : Fin 3, snf.a (fe.symm i)).natAbs = ∏ i : Fin 3, (snf.a i).natAbs := by
    rw [Equiv.prod_comp fe.symm snf.a]
    exact map_prod Int.natAbsHom snf.a Finset.univ
  have hidx := snf.toAddSubgroup_index_eq_pow_mul_prod
  simp only [Fintype.card_fin, Nat.sub_self, pow_zero, one_mul] at hidx
  rw [hidx]
  have hterm : ∀ i : Fin 3, (Ideal.span {snf.a i}).toAddSubgroup.index = (snf.a i).natAbs := by
    intro i
    rw [Ideal.span_singleton_toAddSubgroup_eq_zmultiples, Int.index_zmultiples]
  rw [Finset.prod_congr rfl (fun i _ => hterm i), ← hprod, ← hnat]

theorem funOfV3_v3OfFun (κ : Fin 3 → ℤ) : funOfV3 (v3OfFun κ) = κ := by
  funext i
  fin_cases i <;> rfl

theorem v3OfFun_funOfV3 (v : V3 ℤ) : v3OfFun (funOfV3 v) = v := rfl

theorem funOfV3_sub (a b : V3 ℤ) : funOfV3 (a - b) = funOfV3 a - funOfV3 b := by
  funext i
  fin_cases i <;> simp [funOfV3, V3.sub_x, V3.sub_y, V3.sub_z]

theorem funOfV3_rowMul_transpose (w : V3 ℤ) (m : M3 ℤ) :
    funOfV3 (M3.rowMul w (M3.transpose m)) = Matrix.vecMul (funOfV3 w) (matFin m).transpose := by
  rcases w with ⟨a1, a2, a3⟩
  rcases m with ⟨⟨p1, p2, p3⟩, ⟨q1, q2, q3⟩, ⟨r1, r2, r3⟩⟩
  funext i
  fin_cases i <;>
    simp [funOfV3, M3.rowMul, M3.transpose, matFin, Matrix.vecMul, Matrix.dotProduct,
      Fin.sum_univ_three, Matrix.transpose_apply] <;> ring

theorem det_matFin (m : M3 ℤ) : (matFin m).det = M3.det m := by
  rcases m with ⟨⟨p1, p2, p3⟩, ⟨q1, q2, q3⟩, ⟨r1, r2, r3⟩⟩
  simp [matFin, Matrix.det_fin_three, M3.det]
  ring

theorem mem_latticeOf (m : M3 ℤ) (x : Fin 3 → ℤ) :
    x ∈ latticeOf m ↔ ∃ lv : V3 ℤ, M3.rowMul lv (M3.transpose m) = v3OfFun x := by
  unfold latticeOf
  rw [Submodule.mem_toAddSubgroup, LinearMap.mem_range]
  constructor
  · rintro ⟨lf, hlf⟩
    refine ⟨v3OfFun lf, ?_⟩
    have h1 : funOfV3 (M3.rowMul (v3OfFun lf) (M3.transpose m)) = x := by
      rw [funOfV3_rowMul_transpose, funOfV3_v3OfFun]
      rw [Matrix.vecMulLinear_apply] at hlf
      exact hlf
    rw [← h1, v3OfFun_funOfV3]
  · rintro ⟨lv, hlv⟩
    refine ⟨funOfV3 lv, ?_⟩
    rw [Matrix.vecMulLinear_apply, ← funOfV3_rowMul_transpose, hlv, funOfV3_v3OfFun]

theorem newCoord_invariant (m : M3 ℤ) (hm : M3.det m ≠ 0) (u : V3 ℚ) (κ κ2 : V3 ℤ)
    (h : funOfV3 (κ - κ2) ∈ latticeOf m) :
    newCoordOf m u κ = newCoordOf m u κ2 := by
  have hdetQ : M3.det (M3.toQ m) ≠ 0 := by
    rw [M3.det_toQ]
    exact_mod_cast hm
  obtain ⟨lv, hlv⟩ := (mem_latticeOf m _).mp h
  rw [v3OfFun_funOfV3] at hlv
  unfold newCoordOf
  have hsplit : u + V3.toQ κ = (u + V3.toQ κ2) + (V3.toQ κ - V3.toQ κ2) := by
    rcases u with ⟨u1, u2, u3⟩
    rcases κ with ⟨a1, a2, a3⟩
    rcases κ2 with ⟨b1, b2, b3⟩
    simp only [V3.toQ, V3.ext_iff', V3.add_x, V3.add_y, V3.add_z, V3.sub_x, V3.sub_y, V3.sub_z]
    refine ⟨by ring, by ring, by ring⟩
  rw [hsplit, rowMul_add]
  have hint : M3.rowMul (V3.toQ κ - V3.toQ κ2) (M3.transpose (M3.inv (M3.toQ m))) =
      V3.toQ lv := by
    rw [← V3.toQ_sub, ← hlv, V3.toQ_rowMul, M3.toQ_transpose, M3.rowMul_rowMul]
    have hmm : M3.mul (M3.transpose (M3.toQ m)) (M3.transpose (M3.inv (M3.toQ m))) =
        M3.idM := by
      rw [← M3.transpose_mul', M3.inv_mul _ hdetQ, M3.transpose_idM]
    rw [hmm, M3.rowMul_idM]
  rw [hint, fracV_add_intV]

theorem replica_newCoord (m : M3 ℤ) (hm : M3.det m ≠ 0) (u : V3 ℚ) (k j i : ℕ) :
    fracV (M3.rowMul
      ⟨(u.x + (k : ℚ)) / ((surFrame m).x : ℚ), (u.y + (j : ℚ)) / ((surFrame m).y : ℚ),
       (u.z + (i : ℚ)) / ((surFrame m).z : ℚ)⟩
      (M3.transpose (M3.inv (trimFrameOf m)))) =
    newCoordOf m u ⟨(k : ℤ), (j : ℤ), (i : ℤ)⟩ := by
  have hne := surFrame_ne_zero m hm
  push_neg at hne
  obtain ⟨hx, hy, hz⟩ := hne
  have hfx : ((surFrame m).x : ℚ) ≠ 0 := Int.cast_ne_zero.mpr hx
  have hfy : ((surFrame m).y : ℚ) ≠ 0 := Int.cast_ne_zero.mpr hy
  have hfz : ((surFrame m).z : ℚ) ≠ 0 := Int.cast_ne_zero.mpr hz
  have hdetQ : M3.det (M3.toQ m) ≠ 0 := by
    rw [M3.det_toQ]
    exact_mod_cast hm
  rw [inv_trimFrame m hdetQ hfx hfy hfz, M3.transpose_mul', M3.transpose_diagQ,
    ← M3.rowMul_rowMul]
  have hstep : M3.rowMul
      ⟨(u.x + (k : ℚ)) / ((surFrame m).x : ℚ), (u.y + (j : ℚ)) / ((surFrame m).y : ℚ),
       (u.z + (i : ℚ)) / ((surFrame m).z : ℚ)⟩ (M3.diagQ (surFrame m)) =
      u + V3.toQ ⟨(k : ℤ), (j : ℤ), (i : ℤ)⟩ := by
    simp only [M3.rowMul, M3.diagQ, V3.toQ, V3.ext_iff', V3.add_x, V3.add_y, V3.add_z,
      mul_zero, zero_mul, add_zero, zero_add]
    push_cast
    refine ⟨div_mul_cancel₀ _ hfx, div_mul_cancel₀ _ hfy, div_mul_cancel₀ _ hfz⟩
  rw [hstep]
  rfl

theorem newCoord_finite (m : M3 ℤ) (hm : M3.det m ≠ 0) (u : V3 ℚ) :
    ∃ s : Finset (V3 ℚ), s.card ≤ (M3.det m).natAbs ∧
      ∀ κ : V3 ℤ, newCoordOf m u κ ∈ s := by
  classical
  have hdetT : ((matFin m).transpose).det ≠ 0 := by
    rw [Matrix.det_transpose, det_matFin]
    exact hm
  have hidx : (latticeOf m).index = (M3.det m).natAbs := by
    unfold latticeOf
    rw [range_vecMulLinear_index _ hdetT, Matrix.det_transpose, det_matFin]
  have hcard0 : Nat.card ((Fin 3 → ℤ) ⧸ latticeOf m) = (M3.det m).natAbs := hidx
  have hfin : Finite ((Fin 3 → ℤ) ⧸ latticeOf m) := by
    have h1 : Nat.card ((Fin 3 → ℤ) ⧸ latticeOf m) ≠ 0 := by
      rw [hcard0]
      exact Int.natAbs_ne_zero.mpr hm
    exact (Nat.card_ne_zero.mp h1).2
  letI := Fintype.ofFinite ((Fin 3 → ℤ) ⧸ latticeOf m)
  refine ⟨Finset.image (fun c : (Fin 3 → ℤ) ⧸ latticeOf m =>
    newCoordOf m u (v3OfFun (Quotient.out c))) Finset.univ, ?_, ?_⟩
  · calc (Finset.image (fun c : (Fin 3 → ℤ) ⧸ latticeOf m =>
        newCoordOf m u (v3OfFun (Quotient.out c))) Finset.univ).card
        ≤ Finset.univ.card := Finset.card_image_le
      _ = Fintype.card ((Fin 3 → ℤ) ⧸ latticeOf m) := Finset.card_univ
      _ = Nat.card ((Fin 3 → ℤ) ⧸ latticeOf m) := Nat.card_eq_fintype_card.symm
      _ = (M3.det m).natAbs := hcard0
  · intro κ
    rw [Finset.mem_image]
    refine ⟨QuotientAddGroup.mk (funOfV3 κ), Finset.mem_univ _, ?_⟩
    have h3 : QuotientAddGroup.mk (Quotient.out (QuotientAddGroup.mk (funOfV3 κ) :
        (Fin 3 → ℤ) ⧸ latticeOf m)) = QuotientAddGroup.mk (funOfV3 κ) :=
      Quotient.out_eq _
    have h4 := QuotientAddGroup.eq.mp h3
    apply newCoord_invariant m hm u _ κ
    rw [funOfV3_sub, funOfV3_v3OfFun]
    have h5 : Quotient.out (QuotientAddGroup.mk (funOfV3 κ) : (Fin 3 → ℤ) ⧸ latticeOf m) -
        funOfV3 κ = -(-(Quotient.out (QuotientAddGroup.mk (funOfV3 κ) :
          (Fin 3 → ℤ) ⧸ latticeOf m)) + funOfV3 κ) := by
      abel
    rw [h5]
    exact (latticeOf m).neg_mem h4

theorem trimLoop_kept_facts (L : M3 ℚ) (tol : ℚ) (h0 : 0 < tol) :
    ∀ (atoms : List (ℕ × V3 ℚ)) (st st2 : TrimState),
      trimLoop L tol st atoms = some st2 → st.kept.Nodup →
      st2.kept.Nodup ∧ ∀ q ∈ st2.kept, q ∈ st.kept ∨ ∃ p ∈ atoms, q = p.2 := by
  intro atoms
  induction atoms with
  | nil =>
    intro st st2 h hn
    rw [trimLoop, Option.some.injEq] at h
    subst h
    exact ⟨hn, fun q hq => Or.inl hq⟩
  | cons a rest ih =>
    rcases a with ⟨i, pos⟩
    intro st st2 h hn
    simp only [trimLoop] at h
    by_cases h1 : (overlapIndices L tol st.kept pos).length = 0
    · rw [if_pos h1] at h
      have hpos : pos ∉ st.kept := by
        intro hmem
        have hdist : distLt (V3.sqNorm (M3.rowMul (minImage (pos - pos)) L)) tol := by
          rw [V3.sub_self', minImage_zero, rowMul_zero]
          have hsq : V3.sqNorm (0 : V3 ℚ) = 0 := by
            simp [V3.sqNorm, V3.dot, V3.zero_x, V3.zero_y, V3.zero_z]
          rw [hsq]
          exact ⟨h0, pow_pos h0 2⟩
        exact overlapIndices_ne_nil L tol st.kept pos pos hmem hdist
          (List.length_eq_zero.mp h1)
      have hnodup2 : (st.kept ++ [pos]).Nodup := by
        rw [List.nodup_append]
        refine ⟨hn, List.nodup_singleton pos, ?_⟩
        intro b hb hb2
        rw [List.mem_singleton] at hb2
        subst hb2
        exact hpos hb
      obtain ⟨hn2, hsub⟩ := ih _ _ h hnodup2
      refine ⟨hn2, ?_⟩
      intro q hq
      rcases hsub q hq with hq2 | ⟨p, hp, hq2⟩
      · rcases List.mem_append.mp hq2 with hq3 | hq3
        · exact Or.inl hq3
        · rw [List.mem_singleton] at hq3
          exact Or.inr ⟨(i, pos), by simp, hq3⟩
      · exact Or.inr ⟨p, List.mem_cons_of_mem _ hp, hq2⟩
    · rw [if_neg h1] at h
      by_cases h2 : (overlapIndices L tol st.kept pos).length = 1
      · rw [if_pos h2] at h
        obtain ⟨hn2, hsub⟩ := ih _ _ h hn
        refine ⟨hn2, ?_⟩
        intro q hq
        rcases hsub q hq with hq2 | ⟨p, hp, hq2⟩
        · exact Or.inl hq2
        · exact Or.inr ⟨p, List.mem_cons_of_mem _ hp, hq2⟩
      · rw [if_neg h2] at h
        simp at h

theorem foldr_union_mem {α : Type} [DecidableEq α] :
    ∀ (l : List (Finset α)) (s : Finset α) (x : α), s ∈ l → x ∈ s →
      x ∈ l.foldr (· ∪ ·) ∅ := by
  intro l
  induction l with
  | nil => intro s x hs _; simp at hs
  | cons a rest ih =>
    intro s x hs hx
    rw [List.foldr_cons]
    rcases List.mem_cons.mp hs with hs | hs
    · subst hs
      exact Finset.mem_union_left _ hx
    · exact Finset.mem_union_right _ (ih s x hs hx)

theorem foldr_union_card {α : Type} [DecidableEq α] :
    ∀ (l : List (Finset α)), (l.foldr (· ∪ ·) ∅).card ≤ (l.map Finset.card).sum := by
  intro l
  induction l with
  | nil => simp
  | cons a rest ih =>
    rw [List.foldr_cons, List.map_cons, List.sum_cons]
    calc (a ∪ rest.foldr (· ∪ ·) ∅).card ≤ a.card + (rest.foldr (· ∪ ·) ∅).card :=
        Finset.card_union_le _ _
      _ ≤ a.card + (rest.map Finset.card).sum := by omega

theorem list_sum_le_mul (c : ℕ) :
    ∀ (l : List ℕ), (∀ x ∈ l, x ≤ c) → l.sum ≤ l.length * c := by
  intro l
  induction l with
  | nil => intro _; simp
  | cons a rest ih =>
    intro h
    rw [List.sum_cons, List.length_cons]
    have h1 := h a (by simp)
    have h2 := ih (fun x hx => h x (by simp [hx]))
    calc a + rest.sum ≤ c + rest.length * c := by omega
      _ = (rest.length + 1) * c := by ring

theorem trim_count_le (uc : Cell) (m : M3 ℤ) (tol : ℚ) (h0 : 0 < tol)
    (hm : M3.det m ≠ 0) (tc : Cell) (ext mp : List ℕ)
    (htrim : trimCell (trimFrameOf m) (surCellOf m uc) tol = some (tc, ext, mp)) :
    tc.positions.length ≤ uc.positions.length * (M3.det m).natAbs := by
  classical
  unfold trimCell at htrim
  split_ifs at htrim with hd0
  cases hloop : trimLoop (M3.mul (M3.transpose (trimFrameOf m)) (surCellOf m uc).lattice) tol
      ⟨[], [], []⟩ (((surCellOf m uc).positions.map
        (fun p => fracV (M3.rowMul p (M3.transpose (M3.inv (trimFrameOf m)))))).enum) with
  | none => rw [hloop] at htrim; simp at htrim
  | some st =>
    rw [hloop] at htrim
    simp only [Option.some.injEq, Prod.mk.injEq] at htrim
    obtain ⟨hcell, -, -⟩ := htrim
    have hkept : tc.positions = st.kept := by rw [← hcell]
    obtain ⟨hnodup, hsub⟩ := trimLoop_kept_facts _ tol h0 _ _ _ hloop List.nodup_nil
    choose S hS1 hS2 using fun (u : V3 ℚ) => newCoord_finite m hm u
    have hmemS : ∀ q ∈ st.kept, ∃ u ∈ uc.positions, q ∈ S u := by
      intro q hq
      rcases hsub q hq with hq2 | ⟨p, hp, hq2⟩
      · simp at hq2
      · have hp2 : p.2 ∈ (surCellOf m uc).positions.map
            (fun r => fracV (M3.rowMul r (M3.transpose (M3.inv (trimFrameOf m))))) := by
          have := mem_enumFrom_bounds _ 0 p hp
          exact this.2.2
        obtain ⟨r, hr, hr2⟩ := List.mem_map.mp hp2
        have hr3 : r ∈ uc.positions.flatMap (replicasOf (surFrame m)) := hr
        obtain ⟨u, hu, hrep⟩ := List.mem_flatMap.mp hr3
        unfold replicasOf at hrep
        obtain ⟨i, hi, hrep⟩ := List.mem_flatMap.mp hrep
        obtain ⟨j, hj, hrep⟩ := List.mem_flatMap.mp hrep
        obtain ⟨k, hk, hrepeq⟩ := List.mem_map.mp hrep
        refine ⟨u, hu, ?_⟩
        rw [hq2, ← hr2, ← hrepeq, replica_newCoord m hm u k j i]
        exact hS2 u _
    have hsubfin : st.kept.toFinset ⊆ (uc.positions.map S).foldr (· ∪ ·) ∅ := by
      intro q hq
      rw [List.mem_toFinset] at hq
      obtain ⟨u, hu, hqS⟩ := hmemS q hq
      exact foldr_union_mem _ (S u) q (List.mem_map_of_mem S hu) hqS
    have hlen : st.kept.length = st.kept.toFinset.card :=
      (List.toFinset_card_of_nodup hnodup).symm
    calc tc.positions.length = st.kept.toFinset.card := by rw [hkept, hlen]
      _ ≤ ((uc.positions.map S).foldr (· ∪ ·) ∅).card :=
        Finset.card_le_card hsubfin
      _ ≤ ((uc.positions.map S).map Finset.card).sum := foldr_union_card _
      _ ≤ ((uc.positions.map S).map Finset.card).length * (M3.det m).natAbs := by
        apply list_sum_le_mul
        intro x hx
        obtain ⟨s, hs, hs2⟩ := List.mem_map.mp hx
        obtain ⟨u, -, hu2⟩ := List.mem_map.mp hs
        rw [← hs2, ← hu2]
        exact hS1 u
      _ = uc.positions.length * (M3.det m).natAbs := by
        rw [List.length_map, List.length_map]

/-- C5: under a positive tolerance, for a supercell matrix of positive
determinant `D` and a nonempty unit cell of `N` atoms, once `trim_cell`
returns (so construction reaches the validation step), the construction
fails exactly when the trimmed atom count differs from `N * D` — in
particular also when the trimmed count is not an exact multiple of `N`,
since the trimmed count never exceeds `N * D` (at most `D` distinct folded
images exist per unit atom) — and on failure the built structure is the
empty `Atoms.__init__(self)` structure with zero atoms, not a partial
atom list. -/
theorem supercell_validation (uc : Cell) (m : M3 ℤ) (tol : ℚ)
    (h0 : 0 < tol) (hD : 0 < M3.det m) (hN : 0 < uc.positions.length)
    (tc : Cell) (ext mp : List ℕ)
    (htrim : trimCell (trimFrameOf m) (surCellOf m uc) tol = some (tc, ext, mp)) :
    ∃ res : SupercellResult, createSupercell uc m tol = some res ∧
      (res.success = true ↔ tc.positions.length = uc.positions.length * (M3.det m).toNat) ∧
      (res.success = true → res.cell = tc) ∧
      (res.success = false → res.cell = emptyCell ∧ res.cell.positions.length = 0) := by
  have hm : M3.det m ≠ 0 := by omega
  have hbound := trim_count_le uc m tol h0 hm tc ext mp htrim
  have hnatabs : (M3.det m).natAbs = (M3.det m).toNat := by omega
  rw [hnatabs] at hbound
  have hcastD : (((M3.det m).toNat : ℕ) : ℤ) = M3.det m := Int.toNat_of_nonneg hD.le
  unfold createSupercell
  rw [if_neg (surFrame_ne_zero m hm)]
  simp only [htrim]
  rw [if_neg (by omega : ¬ uc.positions.length = 0)]
  by_cases hval : ((tc.positions.length / uc.positions.length : ℕ) : ℤ) ≠ M3.det m
  · rw [if_pos hval]
    refine ⟨_, rfl, ?_, ?_, ?_⟩
    · constructor
      · intro h
        simp at h
      · intro hns
        exfalso
        apply hval
        rw [hns, Nat.mul_div_cancel_left _ hN]
        exact hcastD
    · intro h
      simp at h
    · intro _
      exact ⟨rfl, rfl⟩
  · rw [if_neg hval]
    push_neg at hval
    refine ⟨_, rfl, ?_, ?_, ?_⟩
    · constructor
      · intro _
        have hdiv : tc.positions.length / uc.positions.length = (M3.det m).toNat := by
          have h1 : ((tc.positions.length / uc.positions.length : ℕ) : ℤ) =
              (((M3.det m).toNat : ℕ) : ℤ) := by
            rw [hval, hcastD]
          exact_mod_cast h1
        have h2 := Nat.div_mul_le_self tc.positions.length uc.positions.length
        rw [hdiv] at h2
        have h3 : uc.positions.length * (M3.det m).toNat ≤ tc.positions.length := by
          calc uc.positions.length * (M3.det m).toNat
              = (M3.det m).toNat * uc.positions.length := by ring
            _ ≤ tc.positions.length := h2
        omega
      · intro _
        rfl
    · intro _
      rfl
    · intro h
      simp at h

/-- Witness for `supercell_validation`: the one-atom cell `ucA` with the
supercell matrix `diag(1,1,2)` and tolerance `1/10`. -/
theorem supercell_validation_witness :
    0 < (1/10 : ℚ) ∧ 0 < M3.det mA ∧ 0 < ucA.positions.length ∧
    trimCell (trimFrameOf mA) (surCellOf mA ucA) (1/10) =
      some (exSuperTrimmed, [0, 1], [0, 1]) ∧
    (∃ res : SupercellResult, createSupercell ucA mA (1/10) = some res ∧
      (res.success = true ↔
        exSuperTrimmed.positions.length = ucA.positions.length * (M3.det mA).toNat) ∧
      (res.success = true → res.cell = exSuperTrimmed) ∧
      (res.success = false → res.cell = emptyCell ∧ res.cell.positions.length = 0)) :=
  ⟨by norm_num,
   of_decide_eq_true (by with_unfolding_all rfl),
   of_decide_eq_true (by with_unfolding_all rfl),
   of_decide_eq_true (by with_unfolding_all rfl),
   supercell_validation ucA mA (1/10) (by norm_num)
     (of_decide_eq_true (by with_unfolding_all rfl))
     (of_decide_eq_true (by with_unfolding_all rfl))
     exSuperTrimmed [0, 1] [0, 1]
     (of_decide_eq_true (by with_unfolding_all rfl))⟩
